import Mathlib

/-!
# Verification of the terminal-toolkit core against its specification

Shallow embedding of the Python sources of `terminal-toolkit`
(`src/terminal/…` and `src/terminal_toolkit/…`) in Lean 4, together with
proofs and refutations of the frozen specification claims.

Conventions of the embedding:
* Python `int` is `Int` (or `Nat` when the source value is provably
  non-negative, e.g. regex digit groups).
* Python `float` arithmetic is modelled exactly over `ℚ`; the numeric facts
  proved here (bounds with slack ≥ 1/500) are insensitive to double rounding.
* Python's builtin `round` (banker's rounding, half-to-even) is `pyRound`;
  Python's `int()` truncation toward zero is `pyTrunc`.
* Python `dict` is an insertion-ordered association list (`PyDict`).
* Regexes of the source are compiled by hand into deterministic scanners;
  every use in the source is of patterns without essential backtracking
  (maximal-munch digit/escape runs followed by characters which can never
  be digits/escape starts), so the scanners agree with `re` semantics.
-/

namespace TerminalToolkit

/-! ## Python numeric builtins -/

/-- Python's builtin `round` on a real (here rational) number:
round-half-to-even ("banker's rounding"). -/
def pyRound (q : ℚ) : ℤ :=
  if q - ⌊q⌋ < 1/2 then ⌊q⌋
  else if 1/2 < q - ⌊q⌋ then ⌊q⌋ + 1
  else if Even ⌊q⌋ then ⌊q⌋ else ⌊q⌋ + 1

/-- Python's `int()` applied to a float: truncation toward zero. -/
def pyTrunc (q : ℚ) : ℤ :=
  if 0 ≤ q then ⌊q⌋ else -⌊-q⌋

theorem pyRound_cases (q : ℚ) : pyRound q = ⌊q⌋ ∨ pyRound q = ⌊q⌋ + 1 := by
  unfold pyRound
  split
  · exact Or.inl rfl
  · split
    · exact Or.inr rfl
    · split
      · exact Or.inl rfl
      · exact Or.inr rfl

theorem pyRound_nonneg {q : ℚ} (h : 0 ≤ q) : 0 ≤ pyRound q := by
  have hf : (0 : ℤ) ≤ ⌊q⌋ := Int.floor_nonneg.mpr h
  rcases pyRound_cases q with h' | h' <;> rw [h'] <;> linarith

theorem pyRound_le {q : ℚ} {n : ℤ} (h : q < (n : ℚ) + 1/2) : pyRound q ≤ n := by
  have hfl : ⌊q⌋ ≤ n := by
    have h1 : ⌊q⌋ < n + 1 := Int.floor_lt.mpr (by push_cast; linarith)
    omega
  rcases pyRound_cases q with h' | h'
  · omega
  · by_cases hstrict : ⌊q⌋ + 1 ≤ n
    · omega
    · -- then ⌊q⌋ = n, and we must exclude the rounding-up cases
      have hfn : ⌊q⌋ = n := by omega
      exfalso
      have hr : q - (⌊q⌋ : ℚ) < 1/2 := by
        rw [hfn]; linarith
      unfold pyRound at h'
      rw [if_pos hr] at h'
      omega

/-! ## `_rgb_to_xterm_256` (src/terminal/color.py:47-55, identical copy in
src/terminal/styles.py:74-82) -/

/-- Embedding of `_rgb_to_xterm_256(rgb)`:

```python
if r == g == b:
    return 16 if sum([r, g, b]) < 24 else (
        231 if sum([r, g, b]) > 744 else int(round((float(r - 8) / 247) * 24) + 232))
else:
    return int(
        16 + (36 * round(float(r) / 255 * 5)) + (6 * round(float(g) / 255 * 5)) + round(float(b) / 255 * 5))
```
-/
def rgbToXterm256 (r g b : ℕ) : ℤ :=
  if r = g ∧ g = b then
    if r + g + b < 24 then 16
    else if 744 < r + g + b then 231
    else pyRound (((r : ℚ) - 8) / 247 * 24) + 232
  else
    16 + 36 * pyRound ((r : ℚ) / 255 * 5) + 6 * pyRound ((g : ℚ) / 255 * 5)
      + pyRound ((b : ℚ) / 255 * 5)

theorem pyRound_bounds {q : ℚ} {n : ℤ} (h0 : 0 ≤ q) (h1 : q < (n : ℚ) + 1/2) :
    0 ≤ pyRound q ∧ pyRound q ≤ n :=
  ⟨pyRound_nonneg h0, pyRound_le h1⟩

/-- The color-cube channel quantization `round(x/255*5)` lands in `[0,5]`
for `x ≤ 255`. -/
theorem cube_channel_bounds {x : ℕ} (hx : x ≤ 255) :
    0 ≤ pyRound ((x : ℚ) / 255 * 5) ∧ pyRound ((x : ℚ) / 255 * 5) ≤ 5 := by
  have hxq : (x : ℚ) ≤ 255 := by exact_mod_cast hx
  have hx0 : (0 : ℚ) ≤ (x : ℚ) := by positivity
  refine pyRound_bounds (by positivity) ?_
  have : (x : ℚ) / 255 * 5 ≤ 5 := by
    rw [div_mul_eq_mul_div, div_le_iff₀ (by norm_num)]
    linarith
  calc (x : ℚ) / 255 * 5 ≤ 5 := this
    _ < (5 : ℤ) + 1/2 := by norm_num

/-- The grayscale-ramp index `round((r-8)/247*24)` lands in `[0,23]` for
`8 ≤ r ≤ 248`. -/
theorem gray_ramp_bounds {r : ℕ} (h8 : 8 ≤ r) (h248 : r ≤ 248) :
    0 ≤ pyRound (((r : ℚ) - 8) / 247 * 24) ∧
      pyRound (((r : ℚ) - 8) / 247 * 24) ≤ 23 := by
  have hlo : (8 : ℚ) ≤ (r : ℚ) := by exact_mod_cast h8
  have hhi : (r : ℚ) ≤ 248 := by exact_mod_cast h248
  refine pyRound_bounds ?_ ?_
  · have : (0 : ℚ) ≤ (r : ℚ) - 8 := by linarith
    positivity
  · have : ((r : ℚ) - 8) / 247 * 24 ≤ 5760 / 247 := by
      rw [div_mul_eq_mul_div, div_le_div_iff_of_pos_right (by norm_num)]
      linarith
    calc ((r : ℚ) - 8) / 247 * 24 ≤ 5760 / 247 := this
      _ < (23 : ℤ) + 1/2 := by norm_num

/-- `test_rgbToXterm256`: evaluation sanity checks against the Python
implementation (pure red → 196, mid gray → 244, black → 16, white → 231). -/
theorem rgbToXterm256_eval :
    rgbToXterm256 255 0 0 = 196 ∧ rgbToXterm256 128 128 128 = 244 ∧
      rgbToXterm256 0 0 0 = 16 ∧ rgbToXterm256 255 255 255 = 231 := by
  refine ⟨?_, ?_, ?_, ?_⟩ <;> norm_num [rgbToXterm256, pyRound]

/-- C3 counterexample: the claim asserts `rgb_to_xterm256` always lands in
`[16,231]`, but the grayscale branch maps `(128,128,128)` to `244`, outside
that range (the grayscale ramp occupies palette indices 232–255). -/
theorem C3_counterexample :
    rgbToXterm256 128 128 128 = 244 ∧ ¬ rgbToXterm256 128 128 128 ≤ 231 := by
  constructor
  · norm_num [rgbToXterm256, pyRound]
  · norm_num [rgbToXterm256, pyRound]

/-- C3 (amended): for every RGB triple with channels in `[0,255]`,
`rgb_to_xterm256` returns a value in `[16,255]` (the color cube occupies
`[16,231]`; equal-channel grays additionally use the ramp `[232,255]`).
Determinism ("repeated calls return the same value") holds definitionally:
the embedding is a pure function of `(r,g,b)`. -/
theorem C3_xterm256_range {r g b : ℕ} (hr : r ≤ 255) (hg : g ≤ 255)
    (hb : b ≤ 255) : 16 ≤ rgbToXterm256 r g b ∧ rgbToXterm256 r g b ≤ 255 := by
  unfold rgbToXterm256
  split_ifs with hgray hlow hhigh
  · exact ⟨by norm_num, by norm_num⟩
  · exact ⟨by norm_num, by norm_num⟩
  · obtain ⟨hrg, hgb⟩ := hgray
    have h8 : 8 ≤ r := by omega
    have h248 : r ≤ 248 := by omega
    obtain ⟨hlo, hhi⟩ := gray_ramp_bounds h8 h248
    constructor <;> linarith
  · obtain ⟨hr0, hr5⟩ := cube_channel_bounds hr
    obtain ⟨hg0, hg5⟩ := cube_channel_bounds hg
    obtain ⟨hb0, hb5⟩ := cube_channel_bounds hb
    constructor <;> linarith

/-- Witness for `C3_xterm256_range` at the concrete triple `(128,64,0)`. -/
theorem C3_xterm256_range_witness :
    16 ≤ rgbToXterm256 128 64 0 ∧ rgbToXterm256 128 64 0 ≤ 255 :=
  C3_xterm256_range (by norm_num) (by norm_num) (by norm_num)

/-! ## ANSI SGR escape sequences

The string components work with the regex
`_regex_escape_code = (\u001b\[\d+(;\d+){0,2}m)*`
(src/terminal/styles.py:24).  One repetition, `ESC [ digits (; digits){0,2} m`,
is compiled into the deterministic scanner `parseEsc` below; this is exact
because after a maximal digit run the pattern requires `;` or `m`, neither of
which is a digit, so regex backtracking can never succeed where maximal munch
fails. -/

/-- Splits a maximal leading run of ASCII digits (`\d+` maximal munch). -/
def takeDigits : List Char → List Char × List Char
  | [] => ([], [])
  | c :: cs =>
    if c.isDigit then
      (c :: (takeDigits cs).1, (takeDigits cs).2)
    else ([], c :: cs)

/-- Parses `(;\d+){0,2}m` with remaining repetition budget `k`. -/
def parseEscParams : ℕ → List Char → Option (List Char)
  | _, [] => none
  | k, c :: rest =>
    if c = 'm' then some rest
    else if c = ';' then
      match k with
      | 0 => none
      | k' + 1 =>
        if (takeDigits rest).1 = [] then none
        else parseEscParams k' (takeDigits rest).2
    else none

/-- Parses one SGR escape sequence `\x1b[\d+(;\d+){0,2}m` at the head of the
input; returns the remainder on success. -/
def parseEsc : List Char → Option (List Char)
  | c1 :: c2 :: rest =>
    if c1 = '\x1b' ∧ c2 = '[' then
      if (takeDigits rest).1 = [] then none
      else parseEscParams 2 (takeDigits rest).2
    else none
  | _ => none

theorem takeDigits_snd_length_le (l : List Char) :
    (takeDigits l).2.length ≤ l.length := by
  induction l with
  | nil => simp [takeDigits]
  | cons c cs ih =>
    simp only [takeDigits]
    split
    · simpa using Nat.le_succ_of_le ih
    · simp

theorem parseEscParams_length_lt {k : ℕ} {l r : List Char}
    (h : parseEscParams k l = some r) : r.length < l.length := by
  induction k generalizing l r with
  | zero =>
    match l with
    | [] => simp [parseEscParams] at h
    | c :: rest =>
      simp only [parseEscParams] at h
      split at h
      · cases h; simp
      · split at h <;> simp_all
  | succ k ih =>
    match l with
    | [] => simp [parseEscParams] at h
    | c :: rest =>
      simp only [parseEscParams] at h
      split at h
      · cases h; simp
      · split at h
        · split at h
          · exact absurd h (by simp)
          · have := ih h
            have h2 := takeDigits_snd_length_le rest
            simp only [List.length_cons]
            omega
        · exact absurd h (by simp)

theorem parseEsc_length_lt {l r : List Char} (h : parseEsc l = some r) :
    r.length < l.length := by
  match l with
  | [] => simp [parseEsc] at h
  | [c] => simp [parseEsc] at h
  | c1 :: c2 :: rest =>
    simp only [parseEsc] at h
    split at h
    · split at h
      · exact absurd h (by simp)
      · have := parseEscParams_length_lt h
        have h2 := takeDigits_snd_length_le rest
        simp only [List.length_cons]
        omega
    · exact absurd h (by simp)

/-- Embedding of `re.sub(_regex_escape_code, "", s)`
(`FormatStr.without_escape_codes`, src/terminal/styles.py:655-666): removes
every SGR escape sequence, keeping all other characters.  Every step
consumes at least one character, so any fuel of at least the input length
computes the result (`stripEscAux_congr`); the wrapper `stripEsc` supplies
it. -/
def stripEscAux : ℕ → List Char → List Char
  | 0, _ => []
  | _ + 1, [] => []
  | fuel + 1, c :: cs =>
    match parseEsc (c :: cs) with
    | some r => stripEscAux fuel r
    | none => c :: stripEscAux fuel cs

def stripEsc (s : List Char) : List Char := stripEscAux s.length s

theorem stripEscAux_congr :
    ∀ (f1 f2 : ℕ) (s : List Char), s.length ≤ f1 → s.length ≤ f2 →
      stripEscAux f1 s = stripEscAux f2 s := by
  intro f1
  induction f1 with
  | zero =>
    intro f2 s h1 _
    have : s = [] := List.eq_nil_of_length_eq_zero (by omega)
    subst this
    cases f2 <;> rfl
  | succ f ih =>
    intro f2 s h1 h2
    match s with
    | [] => cases f2 <;> rfl
    | c :: cs =>
      match f2 with
      | 0 => simp at h2
      | f2' + 1 =>
        show (match parseEsc (c :: cs) with
            | some r => stripEscAux f r
            | none => c :: stripEscAux f cs) =
          (match parseEsc (c :: cs) with
            | some r => stripEscAux f2' r
            | none => c :: stripEscAux f2' cs)
        cases hp : parseEsc (c :: cs) with
        | some r =>
          have hlt := parseEsc_length_lt hp
          simp only [List.length_cons] at h1 h2 hlt
          exact ih f2' r (by omega) (by omega)
        | none =>
          simp only [List.length_cons] at h1 h2
          rw [ih f2' cs (by omega) (by omega)]

theorem stripEsc_nil : stripEsc [] = [] := rfl

theorem stripEsc_cons_some {c : Char} {cs r : List Char}
    (h : parseEsc (c :: cs) = some r) : stripEsc (c :: cs) = stripEsc r := by
  show stripEscAux (cs.length + 1) (c :: cs) = stripEscAux r.length r
  have hlt := parseEsc_length_lt h
  simp only [List.length_cons] at hlt
  show (match parseEsc (c :: cs) with
      | some r => stripEscAux cs.length r
      | none => c :: stripEscAux cs.length cs) = _
  rw [h]
  exact stripEscAux_congr _ _ _ (by omega) (by omega)

theorem stripEsc_cons_none {c : Char} {cs : List Char}
    (h : parseEsc (c :: cs) = none) : stripEsc (c :: cs) = c :: stripEsc cs := by
  show (match parseEsc (c :: cs) with
      | some r => stripEscAux cs.length r
      | none => c :: stripEscAux cs.length cs) = _
  rw [h]
  rfl

/-- The reset escape sequence `"\x1b[0m"` (`str(XTerm256NoColor())`). -/
def RESET : List Char := ['\x1b', '[', '0', 'm']

/-- `headNotDigit r` holds when `r` does not start with an ASCII digit. -/
def headNotDigit : List Char → Prop
  | [] => True
  | c :: _ => c.isDigit = false

theorem takeDigits_append {l r : List Char} (hr : headNotDigit r) :
    takeDigits (l ++ r) = ((takeDigits l).1, (takeDigits l).2 ++ r) := by
  induction l with
  | nil =>
    match r with
    | [] => simp [takeDigits]
    | c :: rs =>
      simp only [headNotDigit] at hr
      simp [takeDigits, hr]
  | cons c cs ih =>
    simp only [List.cons_append, takeDigits]
    split
    · simp only [List.append_eq, ih]
    · simp

theorem parseEscParams_append (k : ℕ) (t : List Char) :
    parseEscParams k (t ++ RESET) = (parseEscParams k t).map (· ++ RESET) := by
  induction k generalizing t with
  | zero =>
    match t with
    | [] => rfl
    | c :: rest =>
      simp only [List.cons_append, parseEscParams]
      split
      · rfl
      · split <;> rfl
  | succ k ih =>
    match t with
    | [] => rfl
    | c :: rest =>
      simp only [List.cons_append, parseEscParams]
      split
      · rfl
      · split
        · simp only [List.append_eq]
          rw [takeDigits_append (r := RESET) (by simp [headNotDigit, RESET])]
          split
          · rfl
          · exact ih _
        · rfl

theorem parseEsc_append {t : List Char} (ht : t ≠ []) :
    parseEsc (t ++ RESET) = (parseEsc t).map (· ++ RESET) := by
  match t with
  | [] => exact absurd rfl ht
  | [c] =>
    -- `[c] ++ RESET` starts `c, ESC, …` and ESC ≠ '[', so both sides are
    -- `none`
    have h1 : parseEsc ([c] ++ RESET) = none := by
      show parseEsc (c :: '\x1b' :: ['[', '0', 'm']) = none
      simp only [parseEsc]
      rw [if_neg]
      rintro ⟨-, h2⟩
      exact absurd h2 (by decide)
    have h2 : parseEsc [c] = none := rfl
    rw [h1, h2]
    rfl
  | c1 :: c2 :: rest =>
    simp only [List.cons_append, parseEsc]
    split
    · rw [takeDigits_append (r := RESET) (by simp [headNotDigit, RESET])]
      split
      · rfl
      · exact parseEscParams_append 2 _
    · rfl

theorem stripEsc_append_reset (t : List Char) :
    stripEsc (t ++ RESET) = stripEsc t := by
  have key : ∀ n (t : List Char), t.length < n →
      stripEsc (t ++ RESET) = stripEsc t := by
    intro n
    induction n with
    | zero => intro t h; omega
    | succ n ih =>
      intro t ht
      match t with
      | [] =>
        show stripEsc ([] ++ RESET) = stripEsc []
        rw [List.nil_append, stripEsc_nil,
          show RESET = '\x1b' :: ['[', '0', 'm'] from rfl,
          stripEsc_cons_some (r := []) (by decide), stripEsc_nil]
      | c :: cs =>
        rcases h : parseEsc (c :: cs) with _ | r
        · have happ : parseEsc ((c :: cs) ++ RESET) = none := by
            rw [parseEsc_append (by simp), h]; rfl
          rw [List.cons_append] at happ
          rw [List.cons_append, stripEsc_cons_none happ, stripEsc_cons_none h]
          have : cs.length < n := by
            simp only [List.length_cons] at ht; omega
          rw [ih cs this]
        · have happ : parseEsc ((c :: cs) ++ RESET) = some (r ++ RESET) := by
            rw [parseEsc_append (by simp), h]; rfl
          rw [List.cons_append] at happ
          rw [List.cons_append, stripEsc_cons_some happ, stripEsc_cons_some h]
          have hlt := parseEsc_length_lt h
          have : r.length < n := by
            simp only [List.length_cons] at ht hlt; omega
          exact ih r this
  exact key (t.length + 1) t (by omega)

/-! ## `FormatStr` (src/terminal/styles.py:469-510)

The frozen, escape-aware string wrapper.  The Python constructor accepts a
`str` or a `FormatStr` (anything else — including the empty string — raises
`ValueError`); a `str` argument is stored with the reset escape appended. -/

structure FormatStr where
  s : List Char
deriving DecidableEq, Repr

/-- Embedding of `FormatStr.__init__` (src/terminal/styles.py:473-493).
The `Union[str, FormatStr]` argument is a sum; `none` models `ValueError`. -/
def mkFormatStr : List Char ⊕ FormatStr → Option FormatStr
  | .inl s => if s = [] then none else some ⟨s ++ RESET⟩
  | .inr f => some f

/-- Embedding of `FormatStr.__len__` (src/terminal/styles.py:503-504):
`len(self.without_escape_codes())`. -/
def formatStrLen (f : FormatStr) : ℕ := (stripEsc f.s).length

/-- Visible length of a raw string: its length after removing all SGR
escape sequences. -/
def visLen (s : List Char) : ℕ := (stripEsc s).length

/-- C10 (confirmed): `FormatStr.__init__` raises `ValueError` exactly when its
argument is neither a `FormatStr` nor a non-empty `str`; the empty string is
rejected, and every non-empty string `s` is stored as `s + "\x1b[0m"`, whose
visible length equals that of `s`. -/
theorem C10_formatStr_init (s : String) (hs : s ≠ "") :
    (mkFormatStr (.inl s.data) = some ⟨s.data ++ "\x1b[0m".data⟩ ∧
        formatStrLen ⟨s.data ++ "\x1b[0m".data⟩ = visLen s.data) ∧
      mkFormatStr (.inl "".data) = none ∧
      ∀ f : FormatStr, mkFormatStr (.inr f) = some f := by
  have hdata : s.data ≠ [] := by
    intro h
    exact hs (by cases s; simp_all)
  have hres : "\x1b[0m".data = RESET := by decide
  refine ⟨⟨?_, ?_⟩, ?_, ?_⟩
  · rw [hres]
    simp [mkFormatStr, hdata]
  · show (stripEsc (s.data ++ "\x1b[0m".data)).length = (stripEsc s.data).length
    rw [hres, stripEsc_append_reset]
  · rfl
  · intro f; rfl

/-- Witness for `C10_formatStr_init` at `s = "ab"`: the stored string is
`"ab\x1b[0m"` and the visible length is preserved. -/
theorem C10_formatStr_init_witness :
    mkFormatStr (.inl "ab".data) = some ⟨"ab".data ++ "\x1b[0m".data⟩ ∧
      formatStrLen ⟨"ab".data ++ "\x1b[0m".data⟩ = visLen "ab".data :=
  (C10_formatStr_init "ab" (by decide)).1

/-! ## `FormatStr.__iter__` (src/terminal/styles.py:668-678)

`re.finditer(_regex_escape_code_char, self.s)` with
`_regex_escape_code_char = (esc* (\S) esc*) | (\s)` yields one token per
visible character.  The regex alternation is compiled exactly, including its
backtracking behavior when a run of escape sequences is followed by
whitespace or end of input (the run's last `ESC` byte then itself matches
`\S` and the scan resumes *inside* that escape sequence).  Functions here
take an explicit fuel argument (any fuel > input length is enough, each step
consumes at least one character); the top-level wrappers supply it. -/

/-- Splits a maximal run of SGR escape sequences (`(\u001b\[\d+(;\d+){0,2}m)*`
maximal munch), returning the individual sequences and the remainder. -/
def takeEscRunAux : ℕ → List Char → List (List Char) × List Char
  | 0, cs => ([], cs)
  | fuel + 1, cs =>
    match parseEsc cs with
    | some r =>
      ((cs.take (cs.length - r.length)) :: (takeEscRunAux fuel r).1,
        (takeEscRunAux fuel r).2)
    | none => ([], cs)

def takeEscRun (cs : List Char) : List (List Char) × List Char :=
  takeEscRunAux cs.length cs

/-- One finditer step per visible character; see the section comment. -/
def formatStrCharsAux : ℕ → List Char → List (List Char)
  | 0, _ => []
  | _, [] => []
  | fuel + 1, c :: rest =>
    if c.isWhitespace then [c] :: formatStrCharsAux fuel rest
    else
      match takeEscRun (c :: rest) with
      | ([], _) =>
        -- no leading escape run: token = the character + trailing escapes
        (c :: (takeEscRun rest).1.flatten) :: formatStrCharsAux fuel (takeEscRun rest).2
      | (seqs, after) =>
        match after with
        | d :: rest2 =>
          if d.isWhitespace then
            -- backtrack: drop the last escape of the run, its ESC byte is
            -- the `\S`; the scan resumes inside that escape sequence
            (seqs.dropLast.flatten ++ ['\x1b']) ::
              formatStrCharsAux fuel ((seqs.getLastD []).drop 1 ++ after)
          else
            (seqs.flatten ++ d :: (takeEscRun rest2).1.flatten) ::
              formatStrCharsAux fuel (takeEscRun rest2).2
        | [] =>
          (seqs.dropLast.flatten ++ ['\x1b']) ::
            formatStrCharsAux fuel ((seqs.getLastD []).drop 1)

/-- Embedding of `FormatStr.__iter__`: the sequence of per-cell tokens. -/
def formatStrChars (f : FormatStr) : List (List Char) :=
  formatStrCharsAux (f.s.length + 1) f.s

/-! ## Python `dict` as an insertion-ordered association list -/

/-- `d[k]` lookup (first — and with the maintained no-duplicate invariant,
only — occurrence). -/
def pyGet {α β : Type} [DecidableEq α] : List (α × β) → α → Option β
  | [], _ => none
  | (k', v) :: rest, k => if k = k' then some v else pyGet rest k

/-- `d[k] = v`: updates an existing key in place, else appends. -/
def pyInsert {α β : Type} [DecidableEq α] : List (α × β) → α → β → List (α × β)
  | [], k, v => [(k, v)]
  | (k', v') :: rest, k, v =>
    if k = k' then (k', v) :: rest else (k', v') :: pyInsert rest k v

/-- `d1 | d2` (also `d1 |= d2`): left dict updated with all of `d2`'s
entries, `d2`'s values winning; new keys are appended in `d2`'s order. -/
def pyUnion {α β : Type} [DecidableEq α] (d : List (α × β))
    (l : List (α × β)) : List (α × β) :=
  l.foldl (fun acc kv => pyInsert acc kv.1 kv.2) d

theorem pyGet_insert {α β : Type} [DecidableEq α] (d : List (α × β))
    (k : α) (v : β) (k' : α) :
    pyGet (pyInsert d k v) k' = if k' = k then some v else pyGet d k' := by
  induction d with
  | nil => simp [pyInsert, pyGet]
  | cons kv rest ih =>
    obtain ⟨k1, v1⟩ := kv
    simp only [pyInsert]
    by_cases h1 : k = k1
    · subst h1
      simp only [if_pos rfl, pyGet]
      split <;> simp_all
    · rw [if_neg h1]
      simp only [pyGet, ih]
      by_cases h2 : k' = k1
      · subst h2
        rw [if_pos rfl, if_neg (fun h => h1 h.symm), if_pos rfl]
      · rw [if_neg h2, if_neg h2]

theorem pyGet_eq_none_of_not_mem {α β : Type} [DecidableEq α]
    {l : List (α × β)} {k : α} (h : k ∉ l.map Prod.fst) : pyGet l k = none := by
  induction l with
  | nil => rfl
  | cons kv rest ih =>
    simp only [List.map_cons, List.mem_cons] at h
    push_neg at h
    simp only [pyGet, if_neg h.1]
    exact ih h.2

/-- Lookup in a Python dict union: the right dict's entries win, provided the
right dict has no duplicate keys (always true of an actual `dict`). -/
theorem pyGet_union {α β : Type} [DecidableEq α] (d : List (α × β))
    {l : List (α × β)} (hl : (l.map Prod.fst).Nodup) (k : α) :
    pyGet (pyUnion d l) k =
      match pyGet l k with
      | some v => some v
      | none => pyGet d k := by
  induction l generalizing d with
  | nil => rfl
  | cons kv rest ih =>
    obtain ⟨k1, v1⟩ := kv
    simp only [List.map_cons, List.nodup_cons] at hl
    have ihd := ih (pyInsert d k1 v1) hl.2
    show pyGet (pyUnion (pyInsert d k1 v1) rest) k = _
    rw [ihd, pyGet_insert]
    by_cases h1 : k = k1
    · subst h1
      have hnone : pyGet rest k = none := pyGet_eq_none_of_not_mem hl.1
      simp [pyGet, hnone]
    · simp only [pyGet, if_neg h1]

/-! ## `TerminalScreen` buffers (src/terminal/ui.py:220-457)

State of a `TerminalScreen`: the stored terminal size and the two sparse
pixel buffers.  Pixel positions are pairs of Python ints; cell contents are
the character tokens produced by `FormatStr` iteration. -/

/-- A screen position `(x, y)`. -/
abbrev Pos : Type := ℤ × ℤ

/-- A sparse pixel buffer: a Python dict from positions to cell strings. -/
abbrev PixelBuf : Type := List (Pos × List Char)

structure TermScreen where
  size : ℕ × ℕ
  currBuf : PixelBuf
  lastBuf : PixelBuf
deriving DecidableEq, Repr

/-- The character-placing loop of `TerminalScreen.put_str`
(src/terminal/ui.py:402-406): each token goes to `(x, y)`, `x` advancing
by one per token. -/
def putStrTokens (buf : PixelBuf) (x y : ℤ) : List (List Char) → PixelBuf
  | [] => buf
  | t :: ts => putStrTokens (pyInsert buf (x, y) t) (x + 1) y ts

/-- Embedding of `TerminalScreen.put_str(pos, s)` (src/terminal/ui.py:384-406).
`s = s if isinstance(s, FormatStr) else FormatStr(s)` is exactly
`mkFormatStr`; `none` models the `ValueError` raised on an empty `str`. -/
def putStr (st : TermScreen) (pos : Pos) (s : List Char ⊕ FormatStr) :
    Option TermScreen :=
  (mkFormatStr s).map fun f =>
    { st with currBuf := putStrTokens st.currBuf pos.1 pos.2 (formatStrChars f) }

/-- Embedding of `TerminalScreen.put_pixels(pixels)` (src/terminal/ui.py:408-418):
`self._curr_screen_buf |= pixels`. -/
def screenPutPixels (st : TermScreen) (pixels : PixelBuf) : TermScreen :=
  { st with currBuf := pyUnion st.currBuf pixels }

/-- The resize pre-seeding of `TerminalScreen.write` (src/terminal/ui.py:445-449):
if the terminal size changed, every cell of the new dimensions is written
into `last` as a blank (outer loop over `x`, inner over `y`). -/
def preseedLast (buf : PixelBuf) (w h : ℕ) : PixelBuf :=
  (List.range w).foldl
    (fun b i =>
      (List.range h).foldl (fun b2 j => pyInsert b2 ((i : ℤ), (j : ℤ)) [' ']) b)
    buf

def resizeLast (termSize : ℕ × ℕ) (st : TermScreen) : TermScreen :=
  if st.size = termSize then st
  else { st with size := termSize,
                 lastBuf := preseedLast st.lastBuf termSize.1 termSize.2 }

/-- `{key: " " for (key, _) in buf.items()}`. -/
def blankOf (buf : PixelBuf) : PixelBuf := buf.map fun kv => (kv.1, [' '])

/-- Embedding of `TerminalScreen.write` (src/terminal/ui.py:439-457) at a
given current terminal size.  Returns the pixel dict passed to `put_pixels`
together with the updated screen state (`last := curr`, `curr := {}`). -/
def writeScreen (termSize : ℕ × ℕ) (st : TermScreen) : PixelBuf × TermScreen :=
  (pyUnion (blankOf (resizeLast termSize st).lastBuf)
      (resizeLast termSize st).currBuf,
    { resizeLast termSize st with
      lastBuf := (resizeLast termSize st).currBuf, currBuf := [] })

theorem pyGet_blankOf (buf : PixelBuf) (p : Pos) :
    pyGet (blankOf buf) p = (pyGet buf p).map fun _ => [' '] := by
  induction buf with
  | nil => rfl
  | cons kv rest ih =>
    simp only [blankOf, List.map_cons, pyGet]
    split
    · rfl
    · exact ih

/-- C1 (confirmed): flushing emits exactly the previous frame's positions
blanked out, overlaid with the current buffer (so a cell of `last` absent
from `current` is rewritten as a space); afterwards `last` is the old
`current` and `current` is empty.  In particular, after
`put_str((0,0),"hi")` and a `write()`, a second `write()` with an empty
current buffer emits blanking writes exactly for `(0,0)` and `(1,0)`.
(The terminal size is assumed unchanged since the last flush, and an actual
Python dict never has duplicate keys.) -/
theorem C1_write_diff :
    (∀ (st : TermScreen) (termSize : ℕ × ℕ), st.size = termSize →
        (st.currBuf.map Prod.fst).Nodup →
        (∀ p : Pos, pyGet (writeScreen termSize st).1 p =
            match pyGet st.currBuf p with
            | some v => some v
            | none => (pyGet st.lastBuf p).map fun _ => [' ']) ∧
          (writeScreen termSize st).2.lastBuf = st.currBuf ∧
          (writeScreen termSize st).2.currBuf = []) ∧
      ((putStr ⟨(80, 24), [], []⟩ (0, 0) (.inl "hi".data)).map
          (fun st1 => (writeScreen (80, 24) (writeScreen (80, 24) st1).2).1)
        = some [((0, 0), [' ']), ((1, 0), [' '])]) := by
  constructor
  · intro st termSize hsz hnodup
    have hres : resizeLast termSize st = st := by simp [resizeLast, hsz]
    refine ⟨?_, ?_, ?_⟩
    · intro p
      show pyGet (pyUnion (blankOf (resizeLast termSize st).lastBuf)
          (resizeLast termSize st).currBuf) p = _
      rw [hres, pyGet_union _ hnodup, pyGet_blankOf]
      rcases hc : pyGet st.currBuf p with _ | v <;> simp [hc]
    · show (resizeLast termSize st).currBuf = st.currBuf
      rw [hres]
    · rfl
  · decide

/-- Witness for `C1_write_diff`'s universally quantified part, at the state
reached by the concrete `put_str((0,0),"hi")` scenario (`last` holding the
two cells of `"hi"`, `current` empty, size `(80,24)`). -/
theorem C1_write_diff_witness :
    (∀ p : Pos,
        pyGet (writeScreen (80, 24)
            ⟨(80, 24), [], [((0, 0), ['h']), ((1, 0), 'i' :: "\x1b[0m".data)]⟩).1 p =
          match pyGet ([] : PixelBuf) p with
          | some v => some v
          | none =>
            (pyGet [((0, 0), ['h']), ((1, 0), 'i' :: "\x1b[0m".data)] p).map
              fun _ => [' ']) ∧
      (writeScreen (80, 24)
          ⟨(80, 24), [], [((0, 0), ['h']), ((1, 0), 'i' :: "\x1b[0m".data)]⟩).2.lastBuf
        = [] ∧
      (writeScreen (80, 24)
          ⟨(80, 24), [], [((0, 0), ['h']), ((1, 0), 'i' :: "\x1b[0m".data)]⟩).2.currBuf
        = [] :=
  C1_write_diff.1 ⟨(80, 24), [], [((0, 0), ['h']), ((1, 0), 'i' :: "\x1b[0m".data)]⟩
    (80, 24) rfl (by decide)

/-! ## `put_pixels` (src/terminal/__init__.py:286-302 and
src/terminal_toolkit/console/Console.py:166-180)

`sorted` in Python is a stable sort; with a key function two stable sorts
agree, so the stable insertion sort below is a faithful model. -/

/-- Stable insertion of `p` after all existing elements with `le · p`. -/
def pyInsertSorted (le : Pos → Pos → Bool) (p : Pos) : List Pos → List Pos
  | [] => [p]
  | q :: qs => if le q p then q :: pyInsertSorted le p qs else p :: q :: qs

/-- Python's stable `sorted(l)` under the total preorder `le`. -/
def pySortedBy (le : Pos → Pos → Bool) (l : List Pos) : List Pos :=
  l.foldl (fun acc p => pyInsertSorted le p acc) []

/-- `key=lambda t: t[1]`: compare positions by their row only. -/
def leByY (p q : Pos) : Bool := p.2 ≤ q.2

/-- Python tuple comparison `(x1,y1) <= (x2,y2)`: lexicographic. -/
def leLex (p q : Pos) : Bool := p.1 < q.1 ∨ (p.1 = q.1 ∧ p.2 ≤ q.2)

/-- The in-bounds test `0 <= x < width and 0 <= y < height` of
`terminal.put_pixels`. -/
def inBounds (size : ℕ × ℕ) (p : Pos) : Bool :=
  0 ≤ p.1 ∧ p.1 < (size.1 : ℤ) ∧ 0 ≤ p.2 ∧ p.2 < (size.2 : ℤ)

/-- Positions written by `terminal.put_pixels` (src/terminal/__init__.py:298),
in emission order: keys sorted (stably) by row only, then filtered to the
terminal bounds. -/
def terminalEmitted (size : ℕ × ℕ) (pixels : PixelBuf) : List Pos :=
  (pySortedBy leByY (pixels.map Prod.fst)).filter (inBounds size)

/-- Positions written by `Console.put_pixels`
(src/terminal_toolkit/console/Console.py:177), in emission order: keys in
lexicographic `(x, y)` tuple order, with no bounds filter. -/
def consoleEmitted (pixels : PixelBuf) : List Pos :=
  pySortedBy leLex (pixels.map Prod.fst)

/-- Row-major order (rows ascending, columns ascending within a row), the
order asserted by the claim. -/
def rowMajorSorted : List Pos → Bool
  | [] => true
  | [_] => true
  | p :: q :: rest =>
    (p.2 < q.2 ∨ (p.2 = q.2 ∧ p.1 ≤ q.1)) && rowMajorSorted (q :: rest)

theorem mem_pyInsertSorted {le : Pos → Pos → Bool} {p x : Pos} :
    ∀ {l : List Pos}, x ∈ pyInsertSorted le p l → x = p ∨ x ∈ l := by
  intro l
  induction l with
  | nil => simp [pyInsertSorted]
  | cons q qs ih =>
    simp only [pyInsertSorted]
    split
    · intro hx
      rcases List.mem_cons.mp hx with h | h
      · exact Or.inr (h ▸ List.mem_cons_self _ _)
      · rcases ih h with h' | h'
        · exact Or.inl h'
        · exact Or.inr (List.mem_cons_of_mem _ h')
    · intro hx
      rcases List.mem_cons.mp hx with h | h
      · exact Or.inl h
      · exact Or.inr h

theorem pairwise_pyInsertSorted {le : Pos → Pos → Bool}
    (htot : ∀ a b, le a b = false → le b a = true)
    (htrans : ∀ a b c, le a b = true → le b c = true → le a c = true)
    {l : List Pos} (p : Pos) (hl : l.Pairwise (le · · = true)) :
    (pyInsertSorted le p l).Pairwise (le · · = true) := by
  induction l with
  | nil => simp [pyInsertSorted]
  | cons q qs ih =>
    rcases List.pairwise_cons.mp hl with ⟨hq, hqs⟩
    simp only [pyInsertSorted]
    split
    · refine List.pairwise_cons.mpr ⟨?_, ih hqs⟩
      intro x hx
      rcases mem_pyInsertSorted hx with h' | h'
      · subst h'; assumption
      · exact hq x h'
    · refine List.pairwise_cons.mpr ⟨?_, hl⟩
      intro x hx
      rcases List.mem_cons.mp hx with h' | h'
      · subst h'
        exact htot _ _ (by simp_all)
      · exact htrans _ _ _ (htot _ _ (by simp_all)) (hq x h')

theorem pairwise_pySortedBy {le : Pos → Pos → Bool}
    (htot : ∀ a b, le a b = false → le b a = true)
    (htrans : ∀ a b c, le a b = true → le b c = true → le a c = true)
    (l : List Pos) : (pySortedBy le l).Pairwise (le · · = true) := by
  have key : ∀ (l acc : List Pos), acc.Pairwise (le · · = true) →
      (l.foldl (fun acc p => pyInsertSorted le p acc) acc).Pairwise
        (le · · = true) := by
    intro l
    induction l with
    | nil => intro acc h; exact h
    | cons p ps ih =>
      intro acc h
      exact ih _ (pairwise_pyInsertSorted htot htrans p h)
  exact key l [] (by simp)

/-- C6 counterexample: neither copy of `put_pixels` emits in row-major
(row, then column) order.  `terminal.put_pixels` sorts by row only and is
stable, so insertion order `(5,0), (2,0)` survives within the row;
`Console.put_pixels` sorts tuples lexicographically, i.e. column-major, so
`(0,5)` is emitted before `(1,0)` although its row is larger. -/
theorem C6_counterexample :
    rowMajorSorted
        (terminalEmitted (80, 24) [((5, 0), ['a']), ((2, 0), ['b'])]) = false ∧
      rowMajorSorted
        (consoleEmitted [((0, 5), ['a']), ((1, 0), ['b'])]) = false := by
  constructor <;> decide

/-- C6 (amended): the positions emitted by a flush are sorted by row in the
`terminal.put_pixels` copy — but only by row: within equal rows the stable
sort preserves buffer insertion order, not column order — while the
`Console.put_pixels` copy emits in lexicographic `(column, row)` order,
i.e. column-major rather than row-major. -/
theorem C6_putPixels_order :
    (∀ (size : ℕ × ℕ) (pixels : PixelBuf),
        (terminalEmitted size pixels).Pairwise (fun p q => leByY p q = true)) ∧
      ∀ pixels : PixelBuf,
        (consoleEmitted pixels).Pairwise (fun p q => leLex p q = true) := by
  constructor
  · intro size pixels
    apply List.Pairwise.filter
    apply pairwise_pySortedBy
    · intro a b hab
      simp only [leByY, decide_eq_false_iff_not, not_le] at hab
      simp only [leByY, decide_eq_true_eq]
      omega
    · intro a b c hab hbc
      simp only [leByY, decide_eq_true_eq] at *
      omega
  · intro pixels
    apply pairwise_pySortedBy
    · intro a b hab
      simp only [leLex, decide_eq_false_iff_not] at hab
      simp only [leLex, decide_eq_true_eq]
      push_neg at hab
      omega
    · intro a b c hab hbc
      simp only [leLex, decide_eq_true_eq] at *
      rcases hab with h | ⟨h1, h2⟩ <;> rcases hbc with h' | ⟨h1', h2'⟩
      · exact Or.inl (lt_trans h h')
      · exact Or.inl (h1' ▸ h)
      · exact Or.inl (h1 ▸ h')
      · exact Or.inr ⟨h1.trans h1', h2.trans h2'⟩

/-! ## The input event parser (src/terminal/events.py)

`parse_event` matches a raw input string against the SGR mouse regexes in a
fixed order, then the modifier-key table, then the single-character rule,
and otherwise returns `UNKNOWN_EVENT`.  The module-level
`_curr_mouse_pos` global is threaded through explicitly as parser state.
The mouse regexes
`\x1b\[\<(BTN;)(\d+;\d+)(M…)` (src/terminal/events.py:10-16) are anchored
prefix matches (`re.match`) and allow trailing garbage; a `MODIFIER_KEYS`
enum member is represented by its (unique) escape-string value. -/

/-- Removes the literal prefix `pre`, if present. -/
def dropPrefix? : List Char → List Char → Option (List Char)
  | [], cs => some cs
  | _ :: _, [] => none
  | p :: ps, c :: cs => if c = p then dropPrefix? ps cs else none

/-- `int()` of a non-empty decimal digit string. -/
def digitsToNat (l : List Char) : ℕ :=
  l.foldl (fun a c => 10 * a + (c.toNat - 48)) 0

/-- One SGR mouse regex
`(\x1b\[\<)(BTN)(\d+;\d+)(END)` applied with `re.match` semantics (anchored
at the start, trailing characters ignored); on success returns the two
numeric fields of the position group.  `parse_mouse_pos`
(src/terminal/events.py:178-186) then re-matches `(\d+);(\d+)` against that
group, which always succeeds, yielding `int(x)-1, int(y)-1`; the subtraction
is done at the use site in `parseEvent`. -/
def matchMousePos (ends : List Char) (r1 : List Char) : Option (ℕ × ℕ) :=
  if (takeDigits r1).1 = [] then none
  else
    match (takeDigits r1).2 with
    | ';' :: r3 =>
      if (takeDigits r3).1 = [] then none
      else
        match (takeDigits r3).2 with
        | e :: _ =>
          if e ∈ ends then
            some (digitsToNat (takeDigits r1).1, digitsToNat (takeDigits r3).1)
          else none
        | [] => none
    | _ => none

def matchMouse (btn : List Char) (ends : List Char) (s : List Char) :
    Option (ℕ × ℕ) :=
  match s with
  | '\x1b' :: '[' :: '<' :: rest => (dropPrefix? btn rest).bind (matchMousePos ends)
  | _ => none

/-- The `MODIFIER_KEYS.values()` table (src/terminal/events.py:24-63), in
declaration order. -/
def modifierValues : List (List Char) :=
  ["\n".data, "\x1b".data, "\t".data, "\x1b[Z".data, "\x7f".data,
    "\x1b[3~".data, "\x1b[A".data, "\x1b[B".data, "\x1b[C".data,
    "\x1b[D".data, "\x1bb".data, "\x1bf".data, "\x18".data, "\x16".data,
    "\x02".data, "\x0e".data, "\x01".data, "\x04".data, "\x06".data,
    "\x07".data, "\x08".data, "\x0b".data, "\x0c".data, "\x17".data,
    "\x05".data, "\x12".data, "\x14".data, "\x15".data, "\x10".data,
    "\x1bOP".data, "\x1bOQ".data, "\x1bOR".data, "\x1bOS".data,
    "\x1b[15~".data, "\x1b[17~".data, "\x1b[18~".data, "\x1b[19~".data,
    "\x1b[20~".data, "\x1b[21~".data]

/-- The `Event` class hierarchy (src/terminal/events.py:74-163).  A
`MODIFIER_KEYS` member is identified by its unique string value. -/
inductive PyEvent where
  | mouseMove (raw : List Char) (x y : ℤ)
  | click (raw : List Char) (x y : ℤ)
  | rightClick (raw : List Char) (x y : ℤ)
  | mouseDrag (raw : List Char) (x y fromX fromY : ℤ)
  | mouseRightDrag (raw : List Char) (x y fromX fromY : ℤ)
  | scrollUp (raw : List Char) (x y : ℤ) (times : ℕ)
  | scrollDown (raw : List Char) (x y : ℤ) (times : ℕ)
  | modifierKey (raw : List Char) (keyVal : List Char)
  | key (raw : List Char) (c : List Char)
  | unknown (raw : List Char) (data : List Char)
  | timeout
  | screenClosed
deriving DecidableEq, Repr

/-- `unparsed_event.count("\x1b")`. -/
def countEsc (s : List Char) : ℕ := s.countP (· = '\x1b')

/-- Embedding of `parse_event` (src/terminal/events.py:189-233).  The mouse
branches are tried in source order; the module global `_curr_mouse_pos` is
the second component of state and result. -/
def parseEvent (s : List Char) (pos : ℤ × ℤ) : PyEvent × (ℤ × ℤ) :=
  match matchMouse ['3', '5', ';'] ['M'] s with
  | some (x, y) =>
    (.mouseMove s ((x : ℤ) - 1) ((y : ℤ) - 1), ((x : ℤ) - 1, (y : ℤ) - 1))
  | none =>
  match matchMouse ['0', ';'] ['M', 'm'] s with
  | some (x, y) =>
    (.click s ((x : ℤ) - 1) ((y : ℤ) - 1), ((x : ℤ) - 1, (y : ℤ) - 1))
  | none =>
  match matchMouse ['2', ';'] ['M'] s with
  | some (x, y) =>
    (.rightClick s ((x : ℤ) - 1) ((y : ℤ) - 1), ((x : ℤ) - 1, (y : ℤ) - 1))
  | none =>
  match matchMouse ['3', '2', ';'] ['M'] s with
  | some (x, y) =>
    (.mouseDrag s ((x : ℤ) - 1) ((y : ℤ) - 1) pos.1 pos.2,
      ((x : ℤ) - 1, (y : ℤ) - 1))
  | none =>
  match matchMouse ['3', '4', ';'] ['M'] s with
  | some (x, y) =>
    (.mouseRightDrag s ((x : ℤ) - 1) ((y : ℤ) - 1) pos.1 pos.2,
      ((x : ℤ) - 1, (y : ℤ) - 1))
  | none =>
  match matchMouse ['6', '5', ';'] ['M'] s with
  | some (x, y) =>
    (.scrollUp s ((x : ℤ) - 1) ((y : ℤ) - 1) (countEsc s),
      ((x : ℤ) - 1, (y : ℤ) - 1))
  | none =>
  match matchMouse ['6', '4', ';'] ['M'] s with
  | some (x, y) =>
    (.scrollDown s ((x : ℤ) - 1) ((y : ℤ) - 1) (countEsc s),
      ((x : ℤ) - 1, (y : ℤ) - 1))
  | none =>
  if s ∈ modifierValues then (.modifierKey s s, pos)
  else if '\x1b' ∉ s ∧ s.length = 1 then (.key s s, pos)
  else (.unknown s s, pos)

/-- The coordinates carried by a mouse event, if any. -/
def mouseCoords : PyEvent → Option (ℤ × ℤ)
  | .mouseMove _ x y => some (x, y)
  | .click _ x y => some (x, y)
  | .rightClick _ x y => some (x, y)
  | .mouseDrag _ x y _ _ => some (x, y)
  | .mouseRightDrag _ x y _ _ => some (x, y)
  | .scrollUp _ x y _ => some (x, y)
  | .scrollDown _ x y _ => some (x, y)
  | _ => none

/-- Every mouse-producing branch of `parse_event` stores the event's own
0-indexed coordinates into `_curr_mouse_pos`; every other branch leaves the
stored position unchanged. -/
theorem parseEvent_state (s : List Char) (p : ℤ × ℤ) :
    (parseEvent s p).2 = (mouseCoords (parseEvent s p).1).getD p := by
  unfold parseEvent
  cases matchMouse ['3', '5', ';'] ['M'] s with
  | some xy => obtain ⟨x, y⟩ := xy; simp [mouseCoords]
  | none =>
  cases matchMouse ['0', ';'] ['M', 'm'] s with
  | some xy => obtain ⟨x, y⟩ := xy; simp [mouseCoords]
  | none =>
  cases matchMouse ['2', ';'] ['M'] s with
  | some xy => obtain ⟨x, y⟩ := xy; simp [mouseCoords]
  | none =>
  cases matchMouse ['3', '2', ';'] ['M'] s with
  | some xy => obtain ⟨x, y⟩ := xy; simp [mouseCoords]
  | none =>
  cases matchMouse ['3', '4', ';'] ['M'] s with
  | some xy => obtain ⟨x, y⟩ := xy; simp [mouseCoords]
  | none =>
  cases matchMouse ['6', '5', ';'] ['M'] s with
  | some xy => obtain ⟨x, y⟩ := xy; simp [mouseCoords]
  | none =>
  cases matchMouse ['6', '4', ';'] ['M'] s with
  | some xy => obtain ⟨x, y⟩ := xy; simp [mouseCoords]
  | none =>
  split_ifs <;> simp [mouseCoords]

/-- A `MouseDrag` result always carries the previous stored mouse position
as its `from_x`/`from_y` fields. -/
theorem parseEvent_drag_from {s : List Char} {p p2 : ℤ × ℤ}
    {r : List Char} {x y fx fy : ℤ} :
    parseEvent s p = (.mouseDrag r x y fx fy, p2) → fx = p.1 ∧ fy = p.2 := by
  unfold parseEvent
  cases matchMouse ['3', '5', ';'] ['M'] s with
  | some xy => obtain ⟨a, b⟩ := xy; intro h; simp at h
  | none =>
  cases matchMouse ['0', ';'] ['M', 'm'] s with
  | some xy => obtain ⟨a, b⟩ := xy; intro h; simp at h
  | none =>
  cases matchMouse ['2', ';'] ['M'] s with
  | some xy => obtain ⟨a, b⟩ := xy; intro h; simp at h
  | none =>
  cases matchMouse ['3', '2', ';'] ['M'] s with
  | some xy =>
    obtain ⟨a, b⟩ := xy
    intro h
    simp only [Prod.mk.injEq, PyEvent.mouseDrag.injEq] at h
    exact ⟨h.1.2.2.2.1.symm, h.1.2.2.2.2.symm⟩
  | none =>
  cases matchMouse ['3', '4', ';'] ['M'] s with
  | some xy => obtain ⟨a, b⟩ := xy; intro h; simp at h
  | none =>
  cases matchMouse ['6', '5', ';'] ['M'] s with
  | some xy => obtain ⟨a, b⟩ := xy; intro h; simp at h
  | none =>
  cases matchMouse ['6', '4', ';'] ['M'] s with
  | some xy => obtain ⟨a, b⟩ := xy; intro h; simp at h
  | none =>
  split_ifs <;> intro h <;> simp at h

/-- C5 (confirmed): every mouse-producing branch of `parse_event` updates the
stored last-known mouse position to the event's own parsed 0-indexed
coordinates, and a `MouseDrag` parsed immediately after a `MouseMove` carries
exactly the position recorded by that `MouseMove` as `from_x`/`from_y`. -/
theorem C5_mouse_position_state :
    (∀ (s : List Char) (p : ℤ × ℤ) (x y : ℤ),
        mouseCoords (parseEvent s p).1 = some (x, y) →
        (parseEvent s p).2 = (x, y)) ∧
      ∀ (s t : List Char) (p p1 p2 : ℤ × ℤ) (r r' : List Char)
        (x y x' y' fx fy : ℤ),
        parseEvent s p = (.mouseMove r x y, p1) →
        parseEvent t p1 = (.mouseDrag r' x' y' fx fy, p2) →
        fx = x ∧ fy = y := by
  constructor
  · intro s p x y h
    rw [parseEvent_state s p, h]
    rfl
  · intro s t p p1 p2 r r' x y x' y' fx fy hmove hdrag
    have hp1 : p1 = (x, y) := by
      have := parseEvent_state s p
      rw [hmove] at this
      exact this
    obtain ⟨h1, h2⟩ := parseEvent_drag_from hdrag
    rw [hp1] at h1 h2
    exact ⟨h1, h2⟩

/-- Witness for `C5_mouse_position_state`: a `MouseMove` to `(3,4)` followed
by a button-32 drag; the drag's `from` endpoint is exactly `(3,4)`. -/
theorem C5_mouse_position_state_witness : (3 : ℤ) = 3 ∧ (4 : ℤ) = 4 :=
  C5_mouse_position_state.2 "\x1b[<35;4;5M".data "\x1b[<32;7;8M".data
    (0, 0) (3, 4) (6, 7) "\x1b[<35;4;5M".data "\x1b[<32;7;8M".data
    3 4 6 7 3 4 (by decide) (by decide)

theorem takeDigits_of_digits {l r : List Char}
    (hl : ∀ c ∈ l, c.isDigit = true) (hr : headNotDigit r) :
    takeDigits (l ++ r) = (l, r) := by
  induction l with
  | nil =>
    match r with
    | [] => rfl
    | c :: rs =>
      simp only [headNotDigit] at hr
      simp [takeDigits, hr]
  | cons c cs ih =>
    have hc : c.isDigit = true := hl c (by simp)
    have hrec := ih fun c' hc' => hl c' (by simp [hc'])
    simp [takeDigits, hc, hrec]

/-- Successful evaluation of one SGR mouse matcher when the text after the
button prefix has the shape `digits ; digits END…`. -/
theorem matchMouse_eval (tail : List Char) {btn ends rest ds1 ds2 : List Char}
    {endc : Char}
    (hdrop : dropPrefix? btn rest = some (ds1 ++ ';' :: (ds2 ++ endc :: tail)))
    (h1 : ds1 ≠ []) (hd1 : ∀ c ∈ ds1, c.isDigit = true)
    (h2 : ds2 ≠ []) (hd2 : ∀ c ∈ ds2, c.isDigit = true)
    (hnd : endc.isDigit = false) (hend : endc ∈ ends) :
    matchMouse btn ends ('\x1b' :: '[' :: '<' :: rest) =
      some (digitsToNat ds1, digitsToNat ds2) := by
  have ht1 : takeDigits (ds1 ++ ';' :: (ds2 ++ endc :: tail)) =
      (ds1, ';' :: (ds2 ++ endc :: tail)) :=
    takeDigits_of_digits hd1 (by simp [headNotDigit])
  have ht2 : takeDigits (ds2 ++ endc :: tail) = (ds2, endc :: tail) :=
    takeDigits_of_digits hd2 (by simp [headNotDigit, hnd])
  simp only [matchMouse]
  rw [hdrop, Option.some_bind]
  simp only [matchMousePos, ht1, ht2]
  rw [if_neg h1, if_neg h2, if_pos hend]

/-- C4 (confirmed): `parse_event("\x1b[<0;11;6M")` is a mouse click at
`(10, 5)`, and in general every SGR button-0 press `ESC[<0;col;row` followed
by `M` or `m` parses to a click at `(col-1, row-1)` — the 1-indexed wire
coordinates become 0-indexed screen coordinates (`col`/`row` quantified as
their wire form, non-empty digit strings). -/
theorem C4_sgr_click :
    ((parseEvent "\x1b[<0;11;6M".data (0, 0)).1 =
        .click "\x1b[<0;11;6M".data 10 5) ∧
      ∀ (ds1 ds2 : List Char) (endc : Char) (p : ℤ × ℤ),
        ds1 ≠ [] → (∀ c ∈ ds1, c.isDigit = true) →
        ds2 ≠ [] → (∀ c ∈ ds2, c.isDigit = true) →
        (endc = 'M' ∨ endc = 'm') →
        (parseEvent
            ('\x1b' :: '[' :: '<' :: '0' :: ';' :: (ds1 ++ ';' :: (ds2 ++ [endc])))
            p).1 =
          .click
            ('\x1b' :: '[' :: '<' :: '0' :: ';' :: (ds1 ++ ';' :: (ds2 ++ [endc])))
            ((digitsToNat ds1 : ℤ) - 1) ((digitsToNat ds2 : ℤ) - 1) := by
  constructor
  · decide
  · intro ds1 ds2 endc p h1 hd1 h2 hd2 hend
    have hnd : endc.isDigit = false := by
      rcases hend with h | h <;> subst h <;> decide
    have hmem : endc ∈ ['M', 'm'] := by
      rcases hend with h | h <;> subst h <;> simp
    have h35 : matchMouse ['3', '5', ';'] ['M']
        ('\x1b' :: '[' :: '<' :: '0' :: ';' :: (ds1 ++ ';' :: (ds2 ++ [endc])))
          = none := by
      simp only [matchMouse]
      rw [show dropPrefix? ['3', '5', ';']
          ('0' :: ';' :: (ds1 ++ ';' :: (ds2 ++ [endc]))) = none by
        simp [dropPrefix?]]
      rfl
    have hclick : matchMouse ['0', ';'] ['M', 'm']
        ('\x1b' :: '[' :: '<' :: '0' :: ';' :: (ds1 ++ ';' :: (ds2 ++ [endc])))
          = some (digitsToNat ds1, digitsToNat ds2) := by
      refine matchMouse_eval [] ?_ h1 hd1 h2 hd2 hnd hmem
      simp [dropPrefix?]
    simp only [parseEvent, h35, hclick]

/-- Witness for `C4_sgr_click`'s quantified part at `col = "11"`,
`row = "6"`, end byte `M`. -/
theorem C4_sgr_click_witness :
    (parseEvent
        ('\x1b' :: '[' :: '<' :: '0' :: ';' :: (['1', '1'] ++ ';' :: (['6'] ++ ['M'])))
        (0, 0)).1 =
      .click
        ('\x1b' :: '[' :: '<' :: '0' :: ';' :: (['1', '1'] ++ ';' :: (['6'] ++ ['M'])))
        ((digitsToNat ['1', '1'] : ℤ) - 1) ((digitsToNat ['6'] : ℤ) - 1) :=
  C4_sgr_click.2 ['1', '1'] ['6'] 'M' (0, 0) (by decide) (by decide)
    (by decide) (by decide) (Or.inl rfl)

/-- ASCII fragment of Python's `str.isprintable` for a single character:
the printable ASCII range is `0x20`–`0x7e`.  (Only applied to ASCII inputs
here; control characters such as `"\x03"` are not printable.) -/
def pyIsPrintable (c : Char) : Bool := 0x20 ≤ c.toNat ∧ c.toNat ≤ 0x7e

/-- C2 counterexample: the claim's fallback condition mentions a single
ESC-free *printable* character, but the code's branch
(`"\x1b" not in unparsed_event and len(unparsed_event) == 1`,
src/terminal/events.py:229) never tests printability: the lone control
character `"\x03"` (Ctrl-C, not among the enumerated modifier keys) matches
no mouse regex, is not a modifier value, and is not printable, yet
`parse_event` returns `Key("\x03")` instead of `UNKNOWN_EVENT`. -/
theorem C2_counterexample :
    matchMouse ['3', '5', ';'] ['M'] "\x03".data = none ∧
      matchMouse ['0', ';'] ['M', 'm'] "\x03".data = none ∧
      matchMouse ['2', ';'] ['M'] "\x03".data = none ∧
      matchMouse ['3', '2', ';'] ['M'] "\x03".data = none ∧
      matchMouse ['3', '4', ';'] ['M'] "\x03".data = none ∧
      matchMouse ['6', '5', ';'] ['M'] "\x03".data = none ∧
      matchMouse ['6', '4', ';'] ['M'] "\x03".data = none ∧
      "\x03".data ∉ modifierValues ∧
      ¬("\x03".data.length = 1 ∧ '\x1b' ∉ "\x03".data ∧
          ∀ c ∈ "\x03".data, pyIsPrintable c = true) ∧
      (parseEvent "\x03".data (0, 0)).1 = .key "\x03".data "\x03".data := by
  decide

/-- C2 (amended): `parse_event` is total — the embedding is a total function
returning an event for every input — and every input that matches none of
the seven mouse-sequence regexes, is not one of the enumerated modifier-key
values, and is not a single ESC-free character (printable or not), is
returned as `UNKNOWN_EVENT` carrying the raw input, with the stored mouse
position untouched. -/
theorem C2_unknown_fallback (s : List Char) (p : ℤ × ℤ)
    (h35 : matchMouse ['3', '5', ';'] ['M'] s = none)
    (h0 : matchMouse ['0', ';'] ['M', 'm'] s = none)
    (h2 : matchMouse ['2', ';'] ['M'] s = none)
    (h32 : matchMouse ['3', '2', ';'] ['M'] s = none)
    (h34 : matchMouse ['3', '4', ';'] ['M'] s = none)
    (h65 : matchMouse ['6', '5', ';'] ['M'] s = none)
    (h64 : matchMouse ['6', '4', ';'] ['M'] s = none)
    (hmod : s ∉ modifierValues)
    (hkey : ¬('\x1b' ∉ s ∧ s.length = 1)) :
    parseEvent s p = (.unknown s s, p) := by
  simp only [parseEvent, h35, h0, h2, h32, h34, h65, h64]
  rw [if_neg hmod, if_neg hkey]

/-- Witness for `C2_unknown_fallback` at the malformed escape `"\x1bZ"`. -/
theorem C2_unknown_fallback_witness :
    parseEvent "\x1bZ".data (0, 0) = (.unknown "\x1bZ".data "\x1bZ".data, (0, 0)) :=
  C2_unknown_fallback "\x1bZ".data (0, 0) (by decide) (by decide) (by decide)
    (by decide) (by decide) (by decide) (by decide) (by decide) (by decide)

/-! ## The event generators (src/terminal/ui.py:266-322 and
src/terminal_toolkit/ui/TerminalScreen.py:52-72)

Both `events()` generators loop `yield next_event()` inside a
`try … except KeyboardInterrupt`.  A run is modelled by the finite list of
read outcomes the generator observes: each blocking read either returns a
parsed event or raises `KeyboardInterrupt`.  The trace function returns the
yielded events together with a flag telling whether the generator has
terminated (a read list without interrupt leaves the generator still
running). -/

/-- Outcome of one blocking `next_event()` call. -/
inductive ReadResult where
  | ev (e : PyEvent)
  | interrupt
deriving DecidableEq, Repr

/-- The parsed event of a read outcome, if any. -/
def readEv : ReadResult → Option PyEvent
  | .ev e => some e
  | .interrupt => none

/-- Trace of `terminal/ui.py`'s `TerminalScreen.events` (blocking branch,
src/terminal/ui.py:297-315): events are yielded until `KeyboardInterrupt`,
which is caught and answered with a final `ScreenClosed` yield. -/
def uiEventsTrace : List ReadResult → List PyEvent × Bool
  | [] => ([], false)
  | .ev e :: rest => (e :: (uiEventsTrace rest).1, (uiEventsTrace rest).2)
  | .interrupt :: _ => ([.screenClosed], true)

/-- Trace of `terminal_toolkit`'s `TerminalScreen.events`
(src/terminal_toolkit/ui/TerminalScreen.py:68-72): on `KeyboardInterrupt`
the generator simply `return`s. -/
def tkEventsTrace : List ReadResult → List PyEvent × Bool
  | [] => ([], false)
  | .ev e :: rest => (e :: (tkEventsTrace rest).1, (tkEventsTrace rest).2)
  | .interrupt :: _ => ([], true)

/-- C9 counterexample: the claim covers both `events` generators, but the
`terminal_toolkit` copy ends its sequence on `KeyboardInterrupt` *without*
yielding a final `ScreenClosed`: interrupted immediately, it terminates
having yielded nothing at all. -/
theorem C9_counterexample :
    (tkEventsTrace [.interrupt]).2 = true ∧
      (tkEventsTrace [.interrupt]).1.getLast? ≠ some .screenClosed := by
  decide

/-- C9 (amended): the event sequence never ends except by explicit
interrupt, and on a `KeyboardInterrupt` the `terminal/ui.py` generator ends
only after yielding a final `ScreenClosed`, whereas the
`terminal_toolkit/ui/TerminalScreen.py` generator ends silently, yielding
exactly the events read before the interrupt and no `ScreenClosed`. -/
theorem C9_events_termination :
    (∀ pre rest : List ReadResult, ReadResult.interrupt ∉ pre →
        uiEventsTrace (pre ++ .interrupt :: rest) =
            (pre.filterMap readEv ++ [.screenClosed], true) ∧
          tkEventsTrace (pre ++ .interrupt :: rest) =
            (pre.filterMap readEv, true)) ∧
      ∀ reads : List ReadResult, ReadResult.interrupt ∉ reads →
        (uiEventsTrace reads).2 = false ∧ (tkEventsTrace reads).2 = false := by
  constructor
  · intro pre rest hpre
    induction pre with
    | nil => exact ⟨rfl, rfl⟩
    | cons r rs ih =>
      match r with
      | .interrupt => exact absurd (List.mem_cons_self _ _) hpre
      | .ev e =>
        have hrs : ReadResult.interrupt ∉ rs :=
          fun h => hpre (List.mem_cons_of_mem _ h)
        obtain ⟨ih1, ih2⟩ := ih hrs
        constructor
        · show (e :: (uiEventsTrace (rs ++ .interrupt :: rest)).1,
              (uiEventsTrace (rs ++ .interrupt :: rest)).2) = _
          rw [ih1]
          rfl
        · show (e :: (tkEventsTrace (rs ++ .interrupt :: rest)).1,
              (tkEventsTrace (rs ++ .interrupt :: rest)).2) = _
          rw [ih2]
          rfl
  · intro reads hreads
    induction reads with
    | nil => exact ⟨rfl, rfl⟩
    | cons r rs ih =>
      match r with
      | .interrupt => exact absurd (List.mem_cons_self _ _) hreads
      | .ev e =>
        have hrs : ReadResult.interrupt ∉ rs :=
          fun h => hreads (List.mem_cons_of_mem _ h)
        exact ih hrs

/-- Witness for `C9_events_termination` at one event read followed by an
interrupt. -/
theorem C9_events_termination_witness :
    (uiEventsTrace [.ev .timeout, .interrupt] =
        ([PyEvent.timeout, .screenClosed], true) ∧
      tkEventsTrace [.ev .timeout, .interrupt] = ([PyEvent.timeout], true)) :=
  C9_events_termination.1 [.ev .timeout] [] (by decide)

/-! ## The two string-wrap implementations

`FormatStr.wrap` (src/terminal/styles.py:628-653) and `EscapedStr.wrap`
(src/terminal_toolkit/style/FormatStr.py:239-267). -/

/-- Splits a maximal leading run of non-whitespace characters. -/
def takeNonWS : List Char → List Char × List Char
  | [] => ([], [])
  | c :: cs =>
    if c.isWhitespace then ([], c :: cs)
    else (c :: (takeNonWS cs).1, (takeNonWS cs).2)

/-- `re.finditer(_regex_escape_code_word, s)`
(`FormatStr.to_words`, src/terminal/styles.py:680-690).  The pattern
`esc* (\S+) esc*` reduces to the maximal runs of non-whitespace characters:
escape bytes are themselves `\S`, so the greedy `\S+` swallows leading and
trailing escape runs whole. -/
def splitNonWSAux : ℕ → List Char → List (List Char)
  | 0, _ => []
  | _ + 1, [] => []
  | fuel + 1, c :: cs =>
    if c.isWhitespace then splitNonWSAux fuel cs
    else (c :: (takeNonWS cs).1) :: splitNonWSAux fuel (takeNonWS cs).2

def splitNonWS (s : List Char) : List (List Char) := splitNonWSAux s.length s

/-- `FormatStr.to_words`: each matched word is passed through the
`FormatStr` constructor, which appends the reset escape (words are
non-empty, so the constructor never raises). -/
def toWords (f : FormatStr) : List FormatStr :=
  (splitNonWS f.s).map fun w => ⟨w ++ RESET⟩

/-- `" ".join(str(s) for s in l)`. -/
def joinSpace (l : List (List Char)) : List Char := List.intercalate [' '] l

/-- The loop of `FormatStr.wrap` (src/terminal/styles.py:643-653); one fuel
unit per popped word plus the final yield.  `len(FormatStr(" ".join(…)))`
is the visible length of the joined string (the constructor's appended reset
is escape-only); `word == "\n"` compares `"\n"` with the word's *stored*
string (which ends in the reset escape, so the test never fires — it is kept
for fidelity).  At the final yield `line` is non-empty whenever the word
list was non-empty, which holds for every `FormatStr` (its stored string
ends in the reset escape, a non-whitespace run). -/
def stylesWrapAux (width : ℕ) : ℕ → List FormatStr → List FormatStr →
    List (List Char)
  | 0, _, _ => []
  | _ + 1, [], line => [joinSpace (line.map FormatStr.s) ++ RESET]
  | fuel + 1, word :: ws, line =>
    if width < visLen (joinSpace ((line ++ [word]).map FormatStr.s)) ∨
        word.s = ['\n'] then
      (if line = [] then [] else [joinSpace (line.map FormatStr.s) ++ RESET]) ++
        stylesWrapAux width fuel ws [word]
    else stylesWrapAux width fuel ws (line ++ [word])

/-- Embedding of `FormatStr.wrap(width)`: the stored strings of the yielded
`FormatStr` lines. -/
def stylesWrap (f : FormatStr) (width : ℕ) : List (List Char) :=
  stylesWrapAux width ((toWords f).length + 1) (toWords f) []

/-- Python `str.expandtabs(n)`: each tab pads to the next multiple of `n`;
the column counter restarts after `\n` and `\r`. -/
def expandTabsAux (n : ℕ) : ℕ → List Char → List Char
  | _, [] => []
  | col, c :: cs =>
    if c = '\t' then
      if n = 0 then expandTabsAux n col cs
      else List.replicate (n - col % n) ' ' ++
        expandTabsAux n (col + (n - col % n)) cs
    else if c = '\n' ∨ c = '\r' then c :: expandTabsAux n 0 cs
    else c :: expandTabsAux n (col + 1) cs

def expandTabs (n : ℕ) (s : List Char) : List Char := expandTabsAux n 0 s

/-- `split_into_words(s)` (src/terminal_toolkit/style/FormatStr.py:45-63):
the regex `(esc+\S+ ?)|(\s)|(\S+ ?)` tokenizes into single whitespace
characters and maximal non-whitespace runs that absorb one optional
trailing space (`esc+\S+` and `\S+` end at the same place because escape
bytes are non-whitespace). -/
def splitIntoWordsAux : ℕ → List Char → List (List Char)
  | 0, _ => []
  | _ + 1, [] => []
  | fuel + 1, c :: cs =>
    if c.isWhitespace then [c] :: splitIntoWordsAux fuel cs
    else
      match (takeNonWS cs).2 with
      | ' ' :: rest2 =>
        ((c :: (takeNonWS cs).1) ++ [' ']) :: splitIntoWordsAux fuel rest2
      | rest2 => (c :: (takeNonWS cs).1) :: splitIntoWordsAux fuel rest2

def splitIntoWords (s : List Char) : List (List Char) :=
  splitIntoWordsAux s.length s

/-- Modelled from the spec: `EscapedStr` has no `__len__` in the source,
although `EscapedStr.wrap` calls `len(EscapedStr(line + word, …))`
(src/terminal_toolkit/style/FormatStr.py:261).  Per spec §4.2 the length is
the "count of non-escape visible characters", which is also what the sibling
`FormatStr.__len__` in the same module computes
(one `regex_escape_code_char` token per visible cell, an escape run binding
to at most one following character). -/
def escapedStrLenAux : ℕ → List Char → ℕ
  | 0, _ => 0
  | _ + 1, [] => 0
  | fuel + 1, c :: cs =>
    match takeEscRun (c :: cs) with
    | ([], _) => 1 + escapedStrLenAux fuel cs
    | (_, []) => 1
    | (_, _ :: after2) => 1 + escapedStrLenAux fuel after2

def escapedStrLen (s : List Char) : ℕ := escapedStrLenAux s.length s

/-- Modelled from the spec: `EscapedStr.WORDS` is documented in the class
docstring ("all split_into_words … contained in the formatted string",
src/terminal_toolkit/style/FormatStr.py:178-179) but has no definition in
the source; modelled as `split_into_words(self._s)`. -/
def escapedWords (s : List Char) : List (List Char) := splitIntoWords s

/-- The loop of `EscapedStr.wrap` (src/terminal_toolkit/style/FormatStr.py:
255-267): an over-long word is *truncated* to `word[0:width]`. -/
def escapedWrapAux (width : ℕ) : ℕ → List (List Char) → List Char →
    List (List Char)
  | 0, _, _ => []
  | _ + 1, [], line => [line]
  | fuel + 1, word :: ws, line =>
    if width < escapedStrLen (line ++ word) ∨ word = ['\n'] then
      line :: escapedWrapAux width fuel ws
        (if word = ['\n'] then [] else word.take width)
    else escapedWrapAux width fuel ws (line ++ word)

/-- Embedding of `EscapedStr.wrap(width, replace_taps=4)` (style `None`). -/
def escapedWrap (s : List Char) (width : ℕ) : List (List Char) :=
  escapedWrapAux width ((escapedWords (expandTabs 4 s)).length + 1)
    (escapedWords (expandTabs 4 s)) []

/-- C8 (confirmed): the two copies of the wrap logic disagree on an
over-long single word.  On `"abcdef"` with width 3, `FormatStr.wrap`
(src/terminal/styles.py) yields the word whole on its own line, while
`EscapedStr.wrap` (src/terminal_toolkit/style/FormatStr.py) emits an empty
line and then the word truncated to `"abc"` — so the two wraps are not
equivalent as functions (visible contents compared, escapes stripped). -/
theorem C8_wrap_divergence :
    (stylesWrap ⟨"abcdef\x1b[0m".data⟩ 3).map stripEsc = ["abcdef".data] ∧
      (escapedWrap "abcdef".data 3).map stripEsc = [[], "abc".data] ∧
      ¬((stylesWrap ⟨"abcdef\x1b[0m".data⟩ 3).map stripEsc =
          (escapedWrap "abcdef".data 3).map stripEsc) := by
  decide

/-! ## The color parser (src/terminal/styles.py:132-230; src/terminal/color.py
has the same code except that a mojibake `Â` has crept into its HSL regex —
irrelevant to the range property proved here)

`color(color_value)` lowercases and strips the input, then tries the
`rgb(..)`, `hsl(..)`, `#hex`, `cmyk(..)` regexes in order, falling back to a
`webcolors` name lookup; the resulting `(r, g, b)` ints are stored verbatim
in the returned `XTerm256Color` (no clamping anywhere).  `webcolors` is an
external collaborator: `hex_to_rgb` is modelled from its documented contract
(3- or 6-digit hex, `ValueError` otherwise), and the CSS3 name table is a
parameter of the embedding (every real entry comes from 6-digit hex, hence
has channels in `[0,255]`). -/

def pyLowerChar (c : Char) : Char :=
  if 'A' ≤ c ∧ c ≤ 'Z' then Char.ofNat (c.toNat + 32) else c

def pyLower (s : List Char) : List Char := s.map pyLowerChar

def pyStrip (s : List Char) : List Char :=
  ((s.dropWhile Char.isWhitespace).reverse.dropWhile Char.isWhitespace).reverse

/-- `\s?` immediately before a non-whitespace literal: consume one leading
whitespace character if present (deterministic, since the following literal
can never be whitespace). -/
def dropOneOptWS (s : List Char) : List Char :=
  match s with
  | c :: cs => if c.isWhitespace then cs else s
  | [] => []

/-- `X?` for a literal character immediately before `,` or `)`. -/
def dropOneOptChar (ch : Char) (s : List Char) : List Char :=
  match s with
  | c :: cs => if c = ch then cs else s
  | [] => []

def expectChar (ch : Char) : List Char → Option (List Char)
  | c :: cs => if c = ch then some cs else none
  | [] => none

/-- `(\d{1,3})` followed by a non-digit literal: the maximal digit run must
have length 1–3 (a fourth digit defeats every backtracking option, since the
following literal is never a digit). -/
def matchUpTo3Digits (s : List Char) : Option (ℕ × List Char) :=
  if (takeDigits s).1 ≠ [] ∧ (takeDigits s).1.length ≤ 3 then
    some (digitsToNat (takeDigits s).1, (takeDigits s).2)
  else none

/-- `_regex_rgbColor = rgb\s?\((\d{1,3}),\s?(\d{1,3}),\s?(\d{1,3})\)`
under `re.match` (anchored prefix, trailing characters ignored). -/
def matchRgbForm (s : List Char) : Option (ℕ × ℕ × ℕ) :=
  (dropPrefix? "rgb".data s).bind fun r1 =>
  (expectChar '(' (dropOneOptWS r1)).bind fun r2 =>
  (matchUpTo3Digits r2).bind fun av =>
  (expectChar ',' av.2).bind fun r4 =>
  (matchUpTo3Digits (dropOneOptWS r4)).bind fun bv =>
  (expectChar ',' bv.2).bind fun r6 =>
  (matchUpTo3Digits (dropOneOptWS r6)).bind fun cv =>
  (expectChar ')' cv.2).map fun _ => (av.1, bv.1, cv.1)

/-- `_regex_hslColor = hsl\s?\((\d{1,3})°?,\s?(\d{1,3})%?,\s?(\d{1,3})%?\)`
(the styles.py copy). -/
def matchHslForm (s : List Char) : Option (ℕ × ℕ × ℕ) :=
  (dropPrefix? "hsl".data s).bind fun r1 =>
  (expectChar '(' (dropOneOptWS r1)).bind fun r2 =>
  (matchUpTo3Digits r2).bind fun hv =>
  (expectChar ',' (dropOneOptChar '°' hv.2)).bind fun r4 =>
  (matchUpTo3Digits (dropOneOptWS r4)).bind fun sv =>
  (expectChar ',' (dropOneOptChar '%' sv.2)).bind fun r6 =>
  (matchUpTo3Digits (dropOneOptWS r6)).bind fun lv =>
  (expectChar ')' (dropOneOptChar '%' lv.2)).map fun _ => (hv.1, sv.1, lv.1)

/-- The character class `[0-9a-fA-F]`, by code point. -/
def isHexDigit (c : Char) : Bool :=
  (48 ≤ c.toNat ∧ c.toNat ≤ 57) ∨ (97 ≤ c.toNat ∧ c.toNat ≤ 102) ∨
    (65 ≤ c.toNat ∧ c.toNat ≤ 70)

def takeHex : List Char → List Char × List Char
  | [] => ([], [])
  | c :: cs =>
    if isHexDigit c then (c :: (takeHex cs).1, (takeHex cs).2)
    else ([], c :: cs)

/-- `_regex_hexColor = (#[0-9a-fA-F]+)`: the captured group's digits. -/
def matchHexForm (s : List Char) : Option (List Char) :=
  (expectChar '#' s).bind fun r1 =>
  if (takeHex r1).1 = [] then none else some (takeHex r1).1

/-- `_regex_cmykColor =
cmyk\s?\((\d{1,3})%?,\s?(\d{1,3})%?,\s?(\d{1,3})%?,\s?(\d{1,3})%?\)`. -/
def matchCmykForm (s : List Char) : Option (ℕ × ℕ × ℕ × ℕ) :=
  (dropPrefix? "cmyk".data s).bind fun r1 =>
  (expectChar '(' (dropOneOptWS r1)).bind fun r2 =>
  (matchUpTo3Digits r2).bind fun cv =>
  (expectChar ',' (dropOneOptChar '%' cv.2)).bind fun r4 =>
  (matchUpTo3Digits (dropOneOptWS r4)).bind fun mv =>
  (expectChar ',' (dropOneOptChar '%' mv.2)).bind fun r6 =>
  (matchUpTo3Digits (dropOneOptWS r6)).bind fun yv =>
  (expectChar ',' (dropOneOptChar '%' yv.2)).bind fun r8 =>
  (matchUpTo3Digits (dropOneOptWS r8)).bind fun kv =>
  (expectChar ')' (dropOneOptChar '%' kv.2)).map fun _ =>
    (cv.1, mv.1, yv.1, kv.1)

def hexVal (c : Char) : ℕ :=
  if 48 ≤ c.toNat ∧ c.toNat ≤ 57 then c.toNat - 48
  else if 97 ≤ c.toNat then c.toNat - 87
  else c.toNat - 55

/-- `webcolors.hex_to_rgb` on the captured digit group (external collaborator,
modelled from its documented contract): 3 hex digits expand by doubling,
6 hex digits pair up, any other length raises `ValueError`. -/
def hexToRgb (d : List Char) : Option (ℕ × ℕ × ℕ) :=
  match d with
  | [a, b, c] => some (17 * hexVal a, 17 * hexVal b, 17 * hexVal c)
  | [a, b, c, d4, e, f] =>
    some (16 * hexVal a + hexVal b, 16 * hexVal c + hexVal d4,
      16 * hexVal e + hexVal f)
  | _ => none

/-- `colorsys`'s `_v(m1, m2, hue)` over `ℚ` (`hue % 1.0` is `Int.fract`). -/
def vHelper (m1 m2 hue : ℚ) : ℚ :=
  if Int.fract hue < 1/6 then m1 + (m2 - m1) * Int.fract hue * 6
  else if Int.fract hue < 1/2 then m2
  else if Int.fract hue < 2/3 then m1 + (m2 - m1) * (2/3 - Int.fract hue) * 6
  else m1

/-- `colorsys.hls_to_rgb(h, l, s)` over `ℚ`. -/
def hlsToRgbQ (h l s : ℚ) : ℚ × ℚ × ℚ :=
  if s = 0 then (l, l, l)
  else
    (vHelper (2 * l - (if l ≤ 1/2 then l * (1 + s) else l + s - l * s))
        (if l ≤ 1/2 then l * (1 + s) else l + s - l * s) (h + 1/3),
      vHelper (2 * l - (if l ≤ 1/2 then l * (1 + s) else l + s - l * s))
        (if l ≤ 1/2 then l * (1 + s) else l + s - l * s) h,
      vHelper (2 * l - (if l ≤ 1/2 then l * (1 + s) else l + s - l * s))
        (if l ≤ 1/2 then l * (1 + s) else l + s - l * s) (h - 1/3))

/-- `_hsl_to_rgb((h, s, l))` (src/terminal/styles.py:116-121):
`colorsys.hls_to_rgb(h/360, l/100, s/100)`, each channel `int(x * 255)`. -/
def hslToRgbInts (h s l : ℕ) : ℤ × ℤ × ℤ :=
  (pyTrunc ((hlsToRgbQ ((h : ℚ) / 360) ((l : ℚ) / 100) ((s : ℚ) / 100)).1 * 255),
    pyTrunc ((hlsToRgbQ ((h : ℚ) / 360) ((l : ℚ) / 100) ((s : ℚ) / 100)).2.1 * 255),
    pyTrunc ((hlsToRgbQ ((h : ℚ) / 360) ((l : ℚ) / 100) ((s : ℚ) / 100)).2.2 * 255))

/-- `_cmyk_to_rgb((c, m, y, k))` (src/terminal/styles.py:99-105). -/
def cmykToRgbInts (c m y k : ℕ) : ℤ × ℤ × ℤ :=
  (pyRound (255 * (1 - (c : ℚ) / 100) * (1 - (k : ℚ) / 100)),
    pyRound (255 * (1 - (m : ℚ) / 100) * (1 - (k : ℚ) / 100)),
    pyRound (255 * (1 - (y : ℚ) / 100) * (1 - (k : ℚ) / 100)))

/-- Embedding of `color(color_value)` (src/terminal/styles.py:132-201),
parametrized by the `webcolors` CSS3 name table.  `none` models the
exceptions: the final `ValueError` of the name fallback, and the uncaught
`ValueError` that `webcolors.hex_to_rgb` raises inside the hex branch on a
hex string that is not 3 or 6 digits long. -/
def colorParse (names : List (List Char × (ℕ × ℕ × ℕ)))
    (input : List Char) : Option (ℤ × ℤ × ℤ) :=
  match matchRgbForm (pyLower (pyStrip input)) with
  | some (r, g, b) => some ((r : ℤ), (g : ℤ), (b : ℤ))
  | none =>
  match matchHslForm (pyLower (pyStrip input)) with
  | some (h, s, l) => some (hslToRgbInts h s l)
  | none =>
  match matchHexForm (pyLower (pyStrip input)) with
  | some d => (hexToRgb d).map fun t => ((t.1 : ℤ), (t.2.1 : ℤ), (t.2.2 : ℤ))
  | none =>
  match matchCmykForm (pyLower (pyStrip input)) with
  | some (c, m, y, k) => some (cmykToRgbInts c m y k)
  | none =>
  (pyGet names (pyLower (pyStrip input))).map fun t =>
    ((t.1 : ℤ), (t.2.1 : ℤ), (t.2.2 : ℤ))

theorem pyTrunc_bounds {q : ℚ} (h0 : 0 ≤ q) (h255 : q ≤ 255) :
    0 ≤ pyTrunc q ∧ pyTrunc q ≤ 255 := by
  unfold pyTrunc
  rw [if_pos h0]
  refine ⟨Int.floor_nonneg.mpr h0, ?_⟩
  have h2 : (⌊q⌋ : ℚ) ≤ 255 := le_trans (Int.floor_le q) h255
  exact_mod_cast h2

theorem vHelper_bounds {m1 m2 hue : ℚ} (h0 : 0 ≤ m1) (h12 : m1 ≤ m2)
    (h1 : m2 ≤ 1) : 0 ≤ vHelper m1 m2 hue ∧ vHelper m1 m2 hue ≤ 1 := by
  have hf0 : 0 ≤ Int.fract hue := Int.fract_nonneg hue
  unfold vHelper
  split_ifs with ha hb hc
  · have hprod : 0 ≤ (m2 - m1) * Int.fract hue * 6 :=
      mul_nonneg (mul_nonneg (by linarith) hf0) (by norm_num)
    have hle : (m2 - m1) * Int.fract hue * 6 ≤ m2 - m1 := by
      have h6 : Int.fract hue * 6 ≤ 1 := by linarith
      calc (m2 - m1) * Int.fract hue * 6
          = (m2 - m1) * (Int.fract hue * 6) := by ring
        _ ≤ (m2 - m1) * 1 := mul_le_mul_of_nonneg_left h6 (by linarith)
        _ = m2 - m1 := mul_one _
    constructor <;> linarith
  · exact ⟨le_trans h0 h12, h1⟩
  · have hprod : 0 ≤ (m2 - m1) * (2/3 - Int.fract hue) * 6 :=
      mul_nonneg (mul_nonneg (by linarith) (by linarith)) (by norm_num)
    have hle : (m2 - m1) * (2/3 - Int.fract hue) * 6 ≤ m2 - m1 := by
      have h6 : (2/3 - Int.fract hue) * 6 ≤ 1 := by linarith
      calc (m2 - m1) * (2/3 - Int.fract hue) * 6
          = (m2 - m1) * ((2/3 - Int.fract hue) * 6) := by ring
        _ ≤ (m2 - m1) * 1 := mul_le_mul_of_nonneg_left h6 (by linarith)
        _ = m2 - m1 := mul_one _
    constructor <;> linarith
  · exact ⟨h0, le_trans h12 h1⟩

theorem hlsToRgbQ_bounds {h l s : ℚ} (hl0 : 0 ≤ l) (hl1 : l ≤ 1)
    (hs0 : 0 ≤ s) (hs1 : s ≤ 1) :
    (0 ≤ (hlsToRgbQ h l s).1 ∧ (hlsToRgbQ h l s).1 ≤ 1) ∧
      (0 ≤ (hlsToRgbQ h l s).2.1 ∧ (hlsToRgbQ h l s).2.1 ≤ 1) ∧
      (0 ≤ (hlsToRgbQ h l s).2.2 ∧ (hlsToRgbQ h l s).2.2 ≤ 1) := by
  unfold hlsToRgbQ
  split_ifs with hs hl2
  · exact ⟨⟨hl0, hl1⟩, ⟨hl0, hl1⟩, ⟨hl0, hl1⟩⟩
  · -- l ≤ 1/2 : m2 = l(1+s), m1 = l(1-s)
    have hm21 : l * (1 + s) ≤ 1 := by nlinarith
    have hm10 : 0 ≤ 2 * l - l * (1 + s) := by nlinarith
    have hm12 : 2 * l - l * (1 + s) ≤ l * (1 + s) := by nlinarith
    exact ⟨vHelper_bounds hm10 hm12 hm21, vHelper_bounds hm10 hm12 hm21,
      vHelper_bounds hm10 hm12 hm21⟩
  · -- 1/2 < l : m2 = l + s - l*s
    push_neg at hl2
    have hm21 : l + s - l * s ≤ 1 := by nlinarith
    have hsl : s * (1 - l) ≤ 1 - l :=
      mul_le_of_le_one_left (by linarith) hs1
    have hm10 : 0 ≤ 2 * l - (l + s - l * s) := by nlinarith
    have hm12 : 2 * l - (l + s - l * s) ≤ l + s - l * s := by nlinarith
    exact ⟨vHelper_bounds hm10 hm12 hm21, vHelper_bounds hm10 hm12 hm21,
      vHelper_bounds hm10 hm12 hm21⟩

theorem hslToRgbInts_bounds (h s l : ℕ) (hs : s ≤ 100) (hl : l ≤ 100) :
    (0 ≤ (hslToRgbInts h s l).1 ∧ (hslToRgbInts h s l).1 ≤ 255) ∧
      (0 ≤ (hslToRgbInts h s l).2.1 ∧ (hslToRgbInts h s l).2.1 ≤ 255) ∧
      (0 ≤ (hslToRgbInts h s l).2.2 ∧ (hslToRgbInts h s l).2.2 ≤ 255) := by
  have hlq : (l : ℚ) ≤ 100 := by exact_mod_cast hl
  have hsq : (s : ℚ) ≤ 100 := by exact_mod_cast hs
  have hl0 : (0 : ℚ) ≤ (l : ℚ) / 100 := by positivity
  have hl1 : (l : ℚ) / 100 ≤ 1 := by linarith
  have hs0 : (0 : ℚ) ≤ (s : ℚ) / 100 := by positivity
  have hs1 : (s : ℚ) / 100 ≤ 1 := by linarith
  obtain ⟨⟨h1a, h1b⟩, ⟨h2a, h2b⟩, ⟨h3a, h3b⟩⟩ :=
    hlsToRgbQ_bounds (h := (h : ℚ) / 360) hl0 hl1 hs0 hs1
  unfold hslToRgbInts
  refine ⟨pyTrunc_bounds ?_ ?_, pyTrunc_bounds ?_ ?_, pyTrunc_bounds ?_ ?_⟩
    <;> nlinarith

theorem cmyk_channel_bounds {a k : ℕ} (ha : a ≤ 100) (hk : k ≤ 100) :
    0 ≤ pyRound (255 * (1 - (a : ℚ) / 100) * (1 - (k : ℚ) / 100)) ∧
      pyRound (255 * (1 - (a : ℚ) / 100) * (1 - (k : ℚ) / 100)) ≤ 255 := by
  have haq : (a : ℚ) ≤ 100 := by exact_mod_cast ha
  have hkq : (k : ℚ) ≤ 100 := by exact_mod_cast hk
  have ha' : (0 : ℚ) ≤ (a : ℚ) / 100 := by positivity
  have hk' : (0 : ℚ) ≤ (k : ℚ) / 100 := by positivity
  have ha0 : (0 : ℚ) ≤ 1 - (a : ℚ) / 100 := by
    have : (a : ℚ) / 100 ≤ 1 := by linarith
    linarith
  have hk0 : (0 : ℚ) ≤ 1 - (k : ℚ) / 100 := by
    have : (k : ℚ) / 100 ≤ 1 := by linarith
    linarith
  have hq0 : (0 : ℚ) ≤ 255 * (1 - (a : ℚ) / 100) * (1 - (k : ℚ) / 100) :=
    mul_nonneg (mul_nonneg (by norm_num) ha0) hk0
  have hq255 : 255 * (1 - (a : ℚ) / 100) * (1 - (k : ℚ) / 100) ≤ 255 := by
    nlinarith
  refine ⟨pyRound_nonneg hq0, pyRound_le ?_⟩
  have : ((255 : ℤ) : ℚ) + 1/2 = 255 + 1/2 := by norm_num
  rw [this]
  linarith

theorem takeHex_digits : ∀ (s : List Char), ∀ c ∈ (takeHex s).1,
    isHexDigit c = true := by
  intro s
  induction s with
  | nil => simp [takeHex]
  | cons c cs ih =>
    simp only [takeHex]
    split
    · intro x hx
      rcases List.mem_cons.mp hx with h | h
      · subst h; assumption
      · exact ih x h
    · simp

theorem hexVal_le {c : Char} (h : isHexDigit c = true) : hexVal c ≤ 15 := by
  simp only [isHexDigit, decide_eq_true_eq] at h
  unfold hexVal
  split_ifs <;> omega

theorem hexToRgb_bounds {d : List Char} (hd : ∀ c ∈ d, isHexDigit c = true)
    {t : ℕ × ℕ × ℕ} (h : hexToRgb d = some t) :
    t.1 ≤ 255 ∧ t.2.1 ≤ 255 ∧ t.2.2 ≤ 255 := by
  rcases d with _ | ⟨a, _ | ⟨b, _ | ⟨c, _ | ⟨d4, _ | ⟨e, _ | ⟨f, _ | ⟨g, rest⟩⟩⟩⟩⟩⟩⟩
  · simp [hexToRgb] at h
  · simp [hexToRgb] at h
  · simp [hexToRgb] at h
  · -- 3 digits
    have ha := hexVal_le (hd a (by simp))
    have hb := hexVal_le (hd b (by simp))
    have hc := hexVal_le (hd c (by simp))
    simp only [hexToRgb, Option.some.injEq] at h
    subst h
    refine ⟨by omega, by simp only [Prod.snd, Prod.fst]; omega,
      by simp only [Prod.snd, Prod.fst]; omega⟩
  · simp [hexToRgb] at h
  · simp [hexToRgb] at h
  · -- 6 digits
    have ha := hexVal_le (hd a (by simp))
    have hb := hexVal_le (hd b (by simp))
    have hc := hexVal_le (hd c (by simp))
    have hd4 := hexVal_le (hd d4 (by simp))
    have he := hexVal_le (hd e (by simp))
    have hf := hexVal_le (hd f (by simp))
    simp only [hexToRgb, Option.some.injEq] at h
    subst h
    refine ⟨by omega, by simp only [Prod.snd, Prod.fst]; omega,
      by simp only [Prod.snd, Prod.fst]; omega⟩
  · simp [hexToRgb] at h

theorem matchHexForm_digits {s d : List Char} (h : matchHexForm s = some d) :
    ∀ c ∈ d, isHexDigit c = true := by
  unfold matchHexForm at h
  cases hx : expectChar '#' s with
  | none => rw [hx] at h; simp at h
  | some r1 =>
    rw [hx, Option.some_bind] at h
    by_cases hemp : (takeHex r1).1 = []
    · rw [if_pos hemp] at h
      exact absurd h (by simp)
    · rw [if_neg hemp] at h
      simp only [Option.some.injEq] at h
      subst h
      exact takeHex_digits r1

theorem pyGet_mem {α β : Type} [DecidableEq α] {l : List (α × β)} {k : α}
    {v : β} (h : pyGet l k = some v) : (k, v) ∈ l := by
  induction l with
  | nil => simp [pyGet] at h
  | cons kv rest ih =>
    obtain ⟨k1, v1⟩ := kv
    simp only [pyGet] at h
    split_ifs at h with hk
    · subst hk
      simp only [Option.some.injEq] at h
      subst h
      exact List.mem_cons_self _ _
    · exact List.mem_cons_of_mem _ (ih h)

/-- C7 counterexample: the rgb regex accepts components of up to three
digits without any range check, and `color` stores them unclamped:
`color("rgb(999,0,0)")` succeeds and the returned canonical RGB triple has
red channel 999, outside `[0,255]`. -/
theorem C7_counterexample :
    colorParse [] "rgb(999,0,0)".data = some (999, 0, 0) ∧
      ¬((999 : ℤ) ≤ 255) := by
  decide

/-- C7 (amended): for every input on which the color parser succeeds, the
returned canonical RGB triple has every channel in `[0,255]`, *provided* the
matched numeric components lie in their nominal ranges (rgb components
≤ 255; hsl saturation/lightness ≤ 100; cmyk components ≤ 100) and every
name-table entry carries byte channels (true of the CSS3 table, whose
entries come from 6-digit hex).  Without that proviso the regexes accept
3-digit components up to 999 and the out-of-range values propagate
unclamped (see `C7_counterexample`). -/
theorem C7_color_range (names : List (List Char × (ℕ × ℕ × ℕ)))
    (input : List Char)
    (hnames : ∀ e ∈ names, e.2.1 ≤ 255 ∧ e.2.2.1 ≤ 255 ∧ e.2.2.2 ≤ 255)
    (hrgb : ∀ x y z : ℕ, matchRgbForm (pyLower (pyStrip input)) = some (x, y, z) →
      x ≤ 255 ∧ y ≤ 255 ∧ z ≤ 255)
    (hhsl : ∀ h s l : ℕ, matchHslForm (pyLower (pyStrip input)) = some (h, s, l) →
      s ≤ 100 ∧ l ≤ 100)
    (hcmyk : ∀ c m y k : ℕ,
      matchCmykForm (pyLower (pyStrip input)) = some (c, m, y, k) →
      c ≤ 100 ∧ m ≤ 100 ∧ y ≤ 100 ∧ k ≤ 100) :
    ∀ r g b : ℤ, colorParse names input = some (r, g, b) →
      (0 ≤ r ∧ r ≤ 255) ∧ (0 ≤ g ∧ g ≤ 255) ∧ (0 ≤ b ∧ b ≤ 255) := by
  intro r g b
  unfold colorParse
  cases hm1 : matchRgbForm (pyLower (pyStrip input)) with
  | some t =>
    obtain ⟨x, y, z⟩ := t
    intro heq
    obtain ⟨hx, hy, hz⟩ := hrgb x y z hm1
    simp only [Option.some.injEq, Prod.mk.injEq] at heq
    obtain ⟨h1, h2, h3⟩ := heq
    subst h1; subst h2; subst h3
    refine ⟨⟨by positivity, by exact_mod_cast hx⟩,
      ⟨by positivity, by exact_mod_cast hy⟩,
      ⟨by positivity, by exact_mod_cast hz⟩⟩
  | none =>
  cases hm2 : matchHslForm (pyLower (pyStrip input)) with
  | some t =>
    obtain ⟨h, s, l⟩ := t
    intro heq
    obtain ⟨hs, hl⟩ := hhsl h s l hm2
    obtain ⟨⟨b1, b2⟩, ⟨b3, b4⟩, ⟨b5, b6⟩⟩ := hslToRgbInts_bounds h s l hs hl
    simp only [Option.some.injEq] at heq
    have e1 : (hslToRgbInts h s l).1 = r := by rw [heq]
    have e2 : (hslToRgbInts h s l).2.1 = g := by rw [heq]
    have e3 : (hslToRgbInts h s l).2.2 = b := by rw [heq]
    rw [← e1, ← e2, ← e3]
    exact ⟨⟨b1, b2⟩, ⟨b3, b4⟩, ⟨b5, b6⟩⟩
  | none =>
  cases hm3 : matchHexForm (pyLower (pyStrip input)) with
  | some d =>
    intro heq
    cases hh : hexToRgb d with
    | none => simp [hh] at heq
    | some t =>
      obtain ⟨hx, hy, hz⟩ := hexToRgb_bounds (matchHexForm_digits hm3) hh
      simp only [hh, Option.map_some', Option.some.injEq, Prod.mk.injEq] at heq
      obtain ⟨h1, h2, h3⟩ := heq
      subst h1; subst h2; subst h3
      refine ⟨⟨by positivity, by exact_mod_cast hx⟩,
        ⟨by positivity, by exact_mod_cast hy⟩,
        ⟨by positivity, by exact_mod_cast hz⟩⟩
  | none =>
  cases hm4 : matchCmykForm (pyLower (pyStrip input)) with
  | some t =>
    obtain ⟨c, m, y, k⟩ := t
    intro heq
    obtain ⟨hc, hm, hy, hk⟩ := hcmyk c m y k hm4
    simp only [Option.some.injEq] at heq
    have e1 : (cmykToRgbInts c m y k).1 = r := by rw [heq]
    have e2 : (cmykToRgbInts c m y k).2.1 = g := by rw [heq]
    have e3 : (cmykToRgbInts c m y k).2.2 = b := by rw [heq]
    rw [← e1, ← e2, ← e3]
    exact ⟨cmyk_channel_bounds hc hk, cmyk_channel_bounds hm hk,
      cmyk_channel_bounds hy hk⟩
  | none =>
  intro heq
  cases hn : pyGet names (pyLower (pyStrip input)) with
  | none => simp [hn] at heq
  | some t =>
    obtain ⟨hx, hy, hz⟩ := hnames _ (pyGet_mem hn)
    simp only [hn, Option.map_some', Option.some.injEq, Prod.mk.injEq] at heq
    obtain ⟨h1, h2, h3⟩ := heq
    subst h1; subst h2; subst h3
    refine ⟨⟨by positivity, by exact_mod_cast hx⟩,
      ⟨by positivity, by exact_mod_cast hy⟩,
      ⟨by positivity, by exact_mod_cast hz⟩⟩

/-- Witness for `C7_color_range` at `"rgb(255, 0, 0)"` with an empty name
table: the parse succeeds with the triple `(255, 0, 0)`, all in range. -/
theorem C7_color_range_witness :
    (0 ≤ (255 : ℤ) ∧ (255 : ℤ) ≤ 255) ∧ (0 ≤ (0 : ℤ) ∧ (0 : ℤ) ≤ 255) ∧
      (0 ≤ (0 : ℤ) ∧ (0 : ℤ) ≤ 255) :=
  C7_color_range [] "rgb(255, 0, 0)".data (by simp)
    (by
      intro x y z hm
      rw [(by decide : matchRgbForm (pyLower (pyStrip "rgb(255, 0, 0)".data)) =
        some (255, 0, 0))] at hm
      simp only [Option.some.injEq, Prod.mk.injEq] at hm
      omega)
    (by
      intro h s l hm
      rw [(by decide : matchHslForm (pyLower (pyStrip "rgb(255, 0, 0)".data)) =
        none)] at hm
      exact Option.noConfusion hm)
    (by
      intro c m y k hm
      rw [(by decide : matchCmykForm (pyLower (pyStrip "rgb(255, 0, 0)".data)) =
        none)] at hm
      exact Option.noConfusion hm)
    255 0 0 (by decide)

end TerminalToolkit
